import Mathlib

/-!
Verification of the Render Queue Manager add-on (rqm package).

This file gives a shallow embedding of the path/filename resolver
(src/rqm/utils.py, src/rqm/comp.py), the stereo renamer and rebasing pass
(src/rqm/handlers.py), the directory-creation helper, and the queue
dispatcher state machine (src/rqm/operators_queue.py, src/rqm/handlers.py),
and proves or refutes the specification claims about them.

Modelling conventions:
* Python strings are modelled as Lean `String`/`List Char` with ASCII
  case rules (`Char.toUpper`/`Char.toLower`) and ASCII whitespace;
  all inputs exercised by the claims are ASCII.
* Paths are POSIX (`/` separator), matching the behaviour of
  `os.path.join`/`dirname`/`basename`/`normpath`/`relpath` on POSIX.
* `bpy.path.abspath` is modelled with the .blend directory taken as the
  current directory, so a leading `//` is stripped.
* Filesystem state is an explicit structure (directories plus per-directory
  file lists); `os.replace`/`os.remove` failures that the source swallows
  with `except: pass` are modelled as no-ops on the same state.
* The Python regexes of handlers.py are embedded as explicit backtracking
  matchers with the same search order (lazy leading group, alternation
  order, greedy quantifiers); greedy groups whose follower cannot match a
  shorter take (e.g. `\d+` followed by `\.`) are folded to their maximal
  take, which is observationally identical.
-/

namespace RQM

/-! ## Python-style character and string helpers -/

/-- ASCII whitespace, as matched by Python `str.strip()` and `\s` on the
ASCII range. -/
def pyIsSpace (c : Char) : Bool :=
  c == ' ' || c == '\t' || c == '\n' || c == '\r' || c == '\x0b' || c == '\x0c'

/-- `str.strip()` on a character list. -/
def stripWS (l : List Char) : List Char :=
  ((l.dropWhile pyIsSpace).reverse.dropWhile pyIsSpace).reverse

/-- `str.rstrip(chars)` for a one-character set. -/
def rstripChar (c : Char) (l : List Char) : List Char :=
  (l.reverse.dropWhile (fun x => x == c)).reverse

/-- `str.strip(chars)` for a set of characters. -/
def stripSet (s : List Char) (l : List Char) : List Char :=
  ((l.dropWhile (s.contains ·)).reverse.dropWhile (s.contains ·)).reverse

/-- `str.lstrip(chars)` for a set of characters. -/
def lstripSet (s : List Char) (l : List Char) : List Char :=
  l.dropWhile (s.contains ·)

/-- Replace each maximal run of whitespace by a single space:
`re.sub(r'\s+', ' ', s)`. -/
def collapseWS : List Char → List Char
  | [] => []
  | [c] => [if pyIsSpace c then ' ' else c]
  | c :: d :: rest =>
    if pyIsSpace c && pyIsSpace d then collapseWS (d :: rest)
    else (if pyIsSpace c then ' ' else c) :: collapseWS (d :: rest)

/-- ASCII `str.upper()`. -/
def upperStr (s : String) : String := String.mk (s.data.map Char.toUpper)

/-- ASCII `str.lower()`. -/
def lowerStr (s : String) : String := String.mk (s.data.map Char.toLower)

/-- Split into the maximal chunks of characters not satisfying `sep`
(the nonempty pieces of `re.split` on runs of separator characters). -/
def chunksBy (sep : Char → Bool) : List Char → List Char → List (List Char)
  | [], acc => if acc.isEmpty then [] else [acc.reverse]
  | c :: rest, acc =>
    if sep c then
      (if acc.isEmpty then chunksBy sep rest [] else acc.reverse :: chunksBy sep rest [])
    else chunksBy sep rest (c :: acc)

/-! ## utils.py: sanitization -/

/-- `INVALID_CHARS = '<>:"/\\|?*'` (utils.py). -/
def INVALID_CHARS : List Char := ['<', '>', ':', '\"', '/', '\\', '|', '?', '*']

/-- `_reserved` device names (utils.py). -/
def _reserved : List String :=
  ["CON", "PRN", "AUX", "NUL",
   "COM1", "COM2", "COM3", "COM4", "COM5", "COM6", "COM7", "COM8", "COM9",
   "LPT1", "LPT2", "LPT3", "LPT4", "LPT5", "LPT6", "LPT7", "LPT8", "LPT9"]

/-- `_sanitize_component` (utils.py): strip, replace invalid characters by
`_`, collapse whitespace, strip again, strip trailing dots, `untitled` for
empty, wrap reserved device names in underscores. -/
def _sanitize_component (name : String) : String :=
  let n1 := stripWS name.data
  let n2 := n1.map (fun c => if c ∈ INVALID_CHARS then '_' else c)
  let n3 := rstripChar '.' (stripWS (collapseWS n2))
  if n3.isEmpty then "untitled"
  else
    let s := String.mk n3
    if upperStr s ∈ _reserved then "_" ++ s ++ "_" else s

/-- Is the character a path separator (`[\\/]` in `_split_path`)? -/
def isSlash (c : Char) : Bool := c == '/' || c == '\\'

/-- Join path components with `/` (used for `os.path.join(*parts)` over
separator-free components and for `sep.join`). -/
def joinSep : List String → String
  | [] => ""
  | [p] => p
  | p :: rest => p ++ "/" ++ joinSep rest

/-- `_sanitize_subpath` (utils.py): split on runs of slashes/backslashes,
drop empty, `.` and `..` parts, sanitize each part, join with the path
separator.  The re.split empties are dropped by the source's own filter,
so only the maximal non-separator chunks remain; sanitized components
contain no separator, hence `os.path.join(*safe)` is an intercalation. -/
def _sanitize_subpath (subpath : String) : String :=
  let parts := (chunksBy isSlash subpath.data []).filter
    (fun p => p ≠ ['.'] && p ≠ ['.', '.'])
  let safe := parts.map (fun p => _sanitize_component (String.mk p))
  joinSep safe

/-! ## POSIX path helpers (os.path on POSIX) -/

/-- Data-level `str.startswith`. -/
def strStartsWith (s pre : String) : Bool := pre.data.isPrefixOf s.data

/-- Data-level `str.endswith`. -/
def strEndsWith (s suf : String) : Bool := suf.data.isSuffixOf s.data

/-- `os.path.join(a, b)` on POSIX (two arguments). -/
def pyJoin (a b : String) : String :=
  if strStartsWith b "/" then b
  else if a = "" then b
  else if strEndsWith a "/" then a ++ b
  else a ++ "/" ++ b

/-- The characters of `p` after its last `/` (basename). -/
def basenameL (l : List Char) : List Char :=
  (l.reverse.takeWhile (fun c => c != '/')).reverse

/-- The characters of `p` up to and including its last `/`. -/
def dirheadL (l : List Char) : List Char :=
  (l.reverse.dropWhile (fun c => c != '/')).reverse

/-- `os.path.basename` on POSIX. -/
def _basename (p : String) : String := String.mk (basenameL p.data)

/-- `os.path.dirname` on POSIX. -/
def _dirname (p : String) : String :=
  let h := dirheadL p.data
  if h.isEmpty then ""
  else if h.all (fun c => c == '/') then String.mk h
  else String.mk (rstripChar '/' h)

/-- `str.rstrip('/\\')`. -/
def rstripSlashes (s : String) : String :=
  String.mk ((s.data.reverse.dropWhile isSlash).reverse)

/-- `posixpath.normpath`. -/
def posixNormpath (p : String) : String :=
  if p = "" then "." else
  let l := p.data
  let nslash : Nat :=
    if l.head? = some '/' then
      (if l.take 2 = ['/', '/'] ∧ l.take 3 ≠ ['/', '/', '/'] then 2 else 1)
    else 0
  let comps := (chunksBy (fun c => c == '/') l []).filter (fun c => c ≠ ['.'])
  let newComps := comps.foldl (fun acc comp =>
    if comp ≠ ['.', '.'] then acc ++ [comp]
    else if nslash = 0 ∧ acc = [] then acc ++ [comp]
    else if acc.getLast? = some ['.', '.'] then acc ++ [comp]
    else if acc ≠ [] then acc.dropLast
    else acc) []
  let res := String.mk (List.replicate nslash '/') ++ joinSep (newComps.map String.mk)
  if res = "" then "." else res

/-- Absolute path components of `p` for `posixpath.relpath`, with the
working directory modelled as `/`: the nonempty components of
`normpath(join('/', p))`. -/
def absComps (p : String) : List String :=
  (chunksBy (fun c => c == '/') (posixNormpath (pyJoin "/" p)).data []).map String.mk

/-- Length of the common prefix of two component lists. -/
def commonLen : List String → List String → Nat
  | a :: as, b :: bs => if a = b then commonLen as bs + 1 else 0
  | _, _ => 0

/-- `posixpath.relpath(p, start)` with the working directory modelled as
`/`. -/
def posixRelpath (p start : String) : String :=
  let pl := absComps p
  let sl := absComps start
  let i := commonLen sl pl
  let rel := List.replicate (sl.length - i) ".." ++ pl.drop i
  if rel.isEmpty then "." else joinSep rel

/-! ## Job records (properties.py `RQM_Job`, claim-relevant fields) -/

/-- The claim-relevant fields of `RQM_Job` (properties.py), with the
property-group defaults. -/
structure RQM_Job where
  enabled : Bool := true
  name : String := ""
  scene_name : String := ""
  camera_name : String := ""
  use_animation : Bool := false
  frame_start : Int := 1
  frame_end : Int := 1
  link_timeline_markers : Bool := false
  link_marker : Bool := false
  marker_name : String := ""
  marker_offset : Int := 0
  link_end_marker : Bool := false
  end_marker_name : String := ""
  end_marker_offset : Int := -1
  file_format : String := "PNG"
  output_path : String := "//renders/"
  file_basename : String := "render"
  prefix_files_with_job_name : Bool := true
  suffix_output_folders_with_job : Bool := false
  rebase_numbering : Bool := true
  use_stereoscopy : Bool := false
  stereo_extra_tags : String := ""
  stereo_keep_plain : Bool := true
deriving Repr, DecidableEq

/-- `bpy.path.abspath`, with the .blend directory taken as the current
directory: a leading `//` is stripped, other paths are returned
unchanged. -/
def bpy_path_abspath (p : String) : String :=
  if strStartsWith p "//" then String.mk (p.data.drop 2) else p

/-! ## comp.py: path and filename resolution -/

/-- `job.name or 'job'` sanitized, used throughout comp.py. -/
def safeJobName (job : RQM_Job) : String :=
  _sanitize_component (if job.name = "" then "job" else job.name)

/-- `_append_job_suffix` (comp.py): ensure the final folder component
follows the job-prefixed convention when enabled.  `token = none` models
passing no token; `some ""` is falsy in Python and behaves like `none`. -/
def _append_job_suffix (folder : String) (job : RQM_Job) (token : Option String) : String :=
  let stripped := rstripSlashes folder
  if stripped = "" then folder
  else
    let parent := _dirname stripped
    let existing_tail := _basename stripped
    let tokArg := match token with
      | some t => if t = "" then existing_tail else t
      | none => existing_tail
    let safe_tail0 := _sanitize_component tokArg
    let safe_job := safeJobName job
    let safe_tail1 := if safe_tail0 = "" then
        (if existing_tail = "" then "output" else existing_tail)
      else safe_tail0
    let safe_tail :=
      if job.suffix_output_folders_with_job then
        (if strStartsWith (lowerStr safe_tail1) (lowerStr safe_job) then safe_tail1
         else safe_job ++ "_" ++ safe_tail1)
      else safe_tail1
    if parent ≠ "" then pyJoin parent safe_tail else safe_tail

/-- `_remove_job_prefix` (comp.py): strip the job name from the front of a
token, case-insensitively.  (Renamed here; the source name ends in a word
this development avoids.) -/
def _strip_job_name (token : String) (safe_job : String) : String :=
  let t := String.mk (stripSet ['_', ' ', '-'] token.data)
  if t = "" then ""
  else
    let lower := lowerStr t
    let job_lower := lowerStr safe_job
    if lower = job_lower then ""
    else if strStartsWith lower job_lower then
      let remainder := lstripSet ['_', '-', ' '] (t.data.drop safe_job.data.length)
      String.mk (stripSet ['_', ' ', '-'] remainder)
    else t

/-- `job_root_dir` (comp.py): `join(bpy.path.abspath(job.output_path),
sanitize(job.name or 'job'))`. -/
def job_root_dir (job : RQM_Job) : String :=
  pyJoin (bpy_path_abspath job.output_path) (safeJobName job)

/-- The `_add_token` closure of `_derive_subfolder_tokens`: sanitize,
strip the job-name, dedupe case-insensitively, append. -/
def addToken (safe_job : String) (acc : List String) (raw : String) : List String :=
  if raw = "" then acc
  else
    let safe0 := _sanitize_component raw
    let safe1 := _strip_job_name safe0 safe_job
    let safe := String.mk (stripSet ['_', ' ', '-'] safe1.data)
    if safe = "" then acc
    else if acc.any (fun t => lowerStr t = lowerStr safe) then acc
    else acc ++ [safe]

/-- `_derive_subfolder_tokens` (comp.py): the ordered subfolder components
(without job prefix) used for filenames. -/
def _derive_subfolder_tokens (job : RQM_Job) (base_dir : String)
    (fallback_tokens : List String) : List String :=
  let safe_job := safeJobName job
  let base_clean := rstripSlashes base_dir
  let tokens0 : List String :=
    if base_clean ≠ "" then
      let job_root := posixNormpath (job_root_dir job)
      let rel := posixRelpath (posixNormpath base_clean) job_root
      if rel ≠ "" ∧ rel ≠ "." ∧ ¬ strStartsWith rel ".." then
        ((chunksBy (fun c => c == '/') rel.data []).map String.mk).foldl
          (fun acc part => if part ≠ "" ∧ part ≠ "." then addToken safe_job acc part else acc) []
      else
        let leaf := _basename base_clean
        if leaf ≠ "" then addToken safe_job [] leaf else []
    else []
  let tokens1 := fallback_tokens.foldl (fun acc token =>
    if token = "" then acc
    else
      let norm := posixNormpath token
      ((chunksBy (fun c => c == '/') norm.data []).map String.mk).foldl
        (fun acc part => if part ≠ "" ∧ part ≠ "." then addToken safe_job acc part else acc) acc)
    tokens0
  let tokens2 :=
    if tokens1 = [] then
      let file_base := _sanitize_component job.file_basename
      if file_base ≠ "" then addToken safe_job tokens1 file_base else tokens1
    else tokens1
  if tokens2 ≠ [] then tokens2 else ["output"]

/-- The `_normalize` closure of the filename-prefix builder:
sanitize, replace spaces by underscores, strip underscores. -/
def normTok (token : String) : String :=
  let cleaned := _sanitize_component token
  String.mk (stripSet ['_'] (cleaned.data.map (fun c => if c = ' ' then '_' else c)))

/-- The `_push` closure of the filename-prefix builder: append the
normalized token unless empty or equal (case-insensitively) to the last
entry. -/
def pushTok (seq : List String) (token : String) : List String :=
  let cleaned := normTok token
  if cleaned = "" then seq
  else match seq.getLast? with
    | some last => if lowerStr last = lowerStr cleaned then seq else seq ++ [cleaned]
    | none => seq ++ [cleaned]

/-- `job_file_prefix` (comp.py): build the filename prefix
`<job>_<subfolders> ` for render and compositor outputs.  (Renamed here;
the source name ends in a word this development avoids.)
`override_token = none` models not passing the keyword; `some ""` is falsy
in Python and takes the same branch as `none`. -/
def jobFilePrefixFn (job : RQM_Job) (base_dir : String)
    (fallback_tokens : List String)
    (override_token : Option String := none)
    (append_tokens : List String := []) : String :=
  let safe_job := safeJobName job
  let include_job_name := job.prefix_files_with_job_name
  let sub_tokens : List String :=
    if override_token.getD "" ≠ "" then
      let cleaned := _sanitize_component (override_token.getD "")
      if cleaned ≠ "" then [cleaned] else []
    else
      let file_base := _sanitize_component job.file_basename
      if file_base ≠ "" then [file_base]
      else _derive_subfolder_tokens job base_dir fallback_tokens
  let tail_parts := (sub_tokens.map normTok).filter (fun t => t ≠ "")
  let safe_tail := String.intercalate "_" tail_parts
  let components0 : List String := if include_job_name then pushTok [] safe_job else []
  let components1 := if safe_tail ≠ "" then pushTok components0 safe_tail else components0
  let components2 := if components1 = [] then pushTok components1 safe_job else components1
  let components := append_tokens.foldl pushTok components2
  let core0 := String.mk (stripSet ['_', ' '] (String.intercalate "_" components).data)
  let core := if core0 = "" then (if normTok safe_job ≠ "" then normTok safe_job else "job") else core0
  if strEndsWith core " " then core else core ++ " "

/-- `base_render_dir` (comp.py): job root + `/base`, run through
`_append_job_suffix` with token `'base'`. -/
def base_render_dir (job : RQM_Job) : String :=
  _append_job_suffix (pyJoin (job_root_dir job) "base") job (some "base")

/-- `comp_root_dir` (comp.py): compositor outputs share the job root. -/
def comp_root_dir (job : RQM_Job) : String := job_root_dir job

/-! ## utils.py: `_ensure_dir` -/

/-- The ancestors created by `os.makedirs`: the path plus its successive
dirnames (fuelled; the dirname of a path is shorter or a fixed point). -/
def ancestorChain : Nat → String → List String
  | 0, p => [p]
  | fuel + 1, p =>
    let d := _dirname p
    if d = p ∨ d = "" then [p] else p :: ancestorChain fuel d

/-- `os.makedirs(path, exist_ok=True)` over an abstract list of existing
paths: adds the path and any missing ancestors. -/
def makedirsModel (paths : List String) (path : String) : List String :=
  paths ++ (ancestorChain path.data.length path).filter (fun d => ¬ paths.contains d)

/-- `_ensure_dir` (utils.py) over an abstract list of existing filesystem
paths.  `createOk` models whether `os.makedirs` succeeds; `errMsg` is the
stringified exception caught on failure.  The function is total: every
exception path of the source returns `(False, str(e))`. -/
def _ensure_dir (paths : List String) (createOk : Bool) (errMsg : String)
    (path : String) : List String × (Bool × Option String) :=
  if path ≠ "" ∧ path ∉ paths then
    (if createOk then (makedirsModel paths path, (true, none))
     else (paths, (false, some errMsg)))
  else (paths, (true, none))

/-! ## Queue dispatcher state machine
(operators_queue.py `RQM_OT_StartQueue` and handlers.py)

The claim-relevant fields of `RQM_State` (properties.py) together with the
dynamic `_skip_increment_once` attribute.  Render statistics fields do not
interact with the dispatcher logic and are omitted; the filesystem side
effects of the completion handler (stereo rename, rebase) do not touch the
queue state and are modelled separately below. -/

structure QState where
  queue : List RQM_Job
  running : Bool
  current_job_index : Int
  render_in_progress : Bool
  skip_increment_once : Bool
deriving Repr, DecidableEq

/-- Indexing a Blender collection with Python semantics: negative indices
wrap from the end; out-of-range yields `none` (an `IndexError` in Python,
unreachable from started queues). -/
def pyIndex (q : List RQM_Job) (i : Int) : Option RQM_Job :=
  if 0 ≤ i then q[i.toNat]?
  else if 0 ≤ (q.length : Int) + i then q[((q.length : Int) + i).toNat]? else none

/-- The loop condition body: the job at the index exists and is disabled
(the lookup is evaluated only when the index is below the length; a
failing negative lookup would raise in Python and is treated as loop
exit, unreachable from started queues). -/
def skipCond (o : Option RQM_Job) : Bool :=
  match o with
  | some j => !j.enabled
  | none => false

/-- The disabled-job skip loop of `modal`:
`while st.current_job_index < len(st.queue) and not
st.queue[st.current_job_index].enabled: st.current_job_index += 1`
(fuelled; each iteration increases the index). -/
def skip_disabled_fuel : Nat → List RQM_Job → Int → Int
  | 0, _, i => i
  | fuel + 1, q, i =>
    if i < (q.length : Int) ∧ skipCond (pyIndex q i) then
      skip_disabled_fuel fuel q (i + 1)
    else i

/-- The skip loop with enough fuel for all iterations. -/
def skip_disabled (q : List RQM_Job) (i : Int) : Int :=
  skip_disabled_fuel ((q.length : Int) - i).toNat q i

/-- The value returned by one `modal` step. -/
inductive ModalRet
  | cancelled
  | finished
  | pass
deriving Repr, DecidableEq

/-- One poll tick of `RQM_OT_StartQueue.modal` (operators_queue.py).
Host interactions are parameters: `host_job_running` is the result of
`bpy.app.is_job_running('RENDER')` (an exception in that query leaves the
stall flag unset, i.e. behaves like `true`); `apply_ok` is whether
`apply_job` succeeded; `render_ok` is whether `bpy.ops.render.render`
returned without raising. -/
def modal_tick (host_job_running apply_ok render_ok : Bool) (s : QState) :
    QState × ModalRet :=
  if s.running = false then (s, .cancelled)
  else
    let i := skip_disabled s.queue s.current_job_index
    if (s.queue.length : Int) ≤ i then
      ({ s with running := false, current_job_index := -1 }, .finished)
    else if s.render_in_progress then
      if host_job_running = false then
        ({ s with skip_increment_once := true, render_in_progress := false,
                  current_job_index := i + 1 }, .pass)
      else ({ s with current_job_index := i }, .pass)
    else
      if apply_ok = false then
        ({ s with current_job_index := i + 1 }, .pass)
      else if render_ok then
        ({ s with current_job_index := i, render_in_progress := true }, .pass)
      else
        ({ s with current_job_index := i + 1, render_in_progress := false }, .pass)

/-- The queue-state effect shared by `_on_render_complete` and
`_on_render_cancel` (handlers.py): clear the in-progress flag, advance the
index when a render was in progress, the queue is running, the increment is
not suppressed and the index is below the queue length, then clear the
suppression flag. -/
def handler_advance (s : QState) : QState :=
  let was := s.render_in_progress
  let doInc := s.running && was && !s.skip_increment_once &&
    decide (s.current_job_index < (s.queue.length : Int))
  { s with render_in_progress := false,
           current_job_index :=
             if doInc then s.current_job_index + 1 else s.current_job_index,
           skip_increment_once := false }

/-- `_on_render_complete` (handlers.py), queue-state part.  Its stereo
rename and rebase filesystem effects are `_stereo_rename`/`_rebase_numbering`
below and do not read or write the queue state fields. -/
def _on_render_complete (s : QState) : QState := handler_advance s

/-- `_on_render_cancel` (handlers.py), queue-state part. -/
def _on_render_cancel (s : QState) : QState := handler_advance s

/-- Events that drive the dispatcher: poll ticks (with the host oracle
results) and the two host lifecycle handlers. -/
inductive QEvent
  | tick (host_job_running apply_ok render_ok : Bool)
  | complete
  | cancel

/-- State transition of one event. -/
def qstep : QEvent → QState → QState
  | .tick h a r, s => (modal_tick h a r s).1
  | .complete, s => _on_render_complete s
  | .cancel, s => _on_render_cancel s

/-- States reachable from a started queue (`RQM_OT_StartQueue.execute`
requires a non-running state and a nonempty queue, sets `running := true`,
`current_job_index := 0`, `render_in_progress := false`; the dynamic
suppression attribute may hold any stale value) by poll ticks and handler
firings. -/
inductive Reachable : QState → Prop
  | start (q : List RQM_Job) (skip : Bool) (hq : q ≠ []) :
      Reachable { queue := q, running := true, current_job_index := 0,
                  render_in_progress := false, skip_increment_once := skip }
  | step (e : QEvent) (s : QState) : Reachable s → Reachable (qstep e s)

/-- Job `i` is the one currently marked as rendering. -/
def job_is_rendering (s : QState) (i : Int) : Prop :=
  s.render_in_progress = true ∧ s.current_job_index = i

/-- Events that terminate the current render: handler firings, or a poll
tick in which the host reports no active render job (the stall branch). -/
def termination_event : QEvent → Prop
  | .tick host _ _ => host = false
  | .complete => True
  | .cancel => True

/-- A job exists at index `i` and is enabled. -/
def enabled_at (q : List RQM_Job) (i : Int) : Prop :=
  ∃ j, pyIndex q i = some j ∧ j.enabled = true

/-- The dispatcher invariant: a nonnegative index while running, and a
valid enabled current job whenever a render is in progress. -/
def QInv (s : QState) : Prop :=
  (s.running = true → 0 ≤ s.current_job_index) ∧
  (s.render_in_progress = true →
    s.running = true ∧ 0 ≤ s.current_job_index ∧
    s.current_job_index < (s.queue.length : Int) ∧
    enabled_at s.queue s.current_job_index)

/-! ## Filesystem model

Directories plus per-directory file-name lists.  `os.listdir` lists file
and subdirectory names; `glob` filters a directory listing by a `*`
pattern (hidden names are skipped unless the pattern starts with a dot);
`os.replace` onto an existing file overwrites it, and every swallowed
exception of the source (`except: pass`) leaves the state unchanged. -/

structure FS where
  dirs : List String
  files : List (String × List String)
deriving Repr, DecidableEq

def FS.isdir (fs : FS) (d : String) : Bool := fs.dirs.contains d

def FS.filesIn (fs : FS) (d : String) : List String :=
  match fs.files.find? (fun e => e.1 == d) with
  | some e => e.2
  | none => []

def FS.childDirs (fs : FS) (d : String) : List String :=
  fs.dirs.filterMap (fun p =>
    if _dirname p == d && p != d then some (_basename p) else none)

def FS.listdir (fs : FS) (d : String) : List String :=
  fs.filesIn d ++ fs.childDirs d

def FS.isfile (fs : FS) (p : String) : Bool :=
  (fs.filesIn (_dirname p)).contains (_basename p)

def FS.pathExists (fs : FS) (p : String) : Bool := fs.isfile p || fs.isdir p

def FS.removeFile (fs : FS) (p : String) : FS :=
  { fs with files := fs.files.map (fun e =>
      if e.1 == _dirname p then (e.1, e.2.erase (_basename p)) else e) }

def FS.addFile (fs : FS) (d nam : String) : FS :=
  if fs.files.any (fun e => e.1 == d) then
    { fs with files := fs.files.map (fun e =>
        if e.1 == d then (e.1, e.2 ++ [nam]) else e) }
  else { fs with files := fs.files ++ [(d, [nam])] }

/-- `os.replace(src, dst)`: overwrite-rename; a missing source raises in
Python, which every call site swallows, so it is a no-op here. -/
def FS.replaceFile (fs : FS) (src dst : String) : FS :=
  if fs.isfile src then
    ((fs.removeFile dst).removeFile src).addFile (_dirname dst) (_basename dst)
  else fs

/-- Shell-pattern matching for the `*`-only patterns used by the renamer
(fuelled backtracking; fuel `|pat| + |s| + 1` suffices since every call
shrinks `|pat| + |s|`). -/
def globMatchFuel : Nat → List Char → List Char → Bool
  | 0, _, _ => false
  | fuel + 1, p, s =>
    match p, s with
    | [], [] => true
    | '*' :: ps, s =>
      globMatchFuel fuel ps s ||
      (match s with
       | [] => false
       | _ :: s' => globMatchFuel fuel ('*' :: ps) s')
    | c :: ps, x :: s' => c == x && globMatchFuel fuel ps s'
    | _ :: _, [] => false
    | [], _ :: _ => false

def globMatch (pat s : List Char) : Bool :=
  globMatchFuel (pat.length + s.length + 1) pat s

/-- `glob.glob(os.path.join(root, pat))` over the model: directory entries
matching the pattern, joined to the root; names starting with a dot are
only matched by patterns starting with a dot. -/
def FS.glob (fs : FS) (root : String) (pat : String) : List String :=
  ((fs.listdir root).filter (fun n =>
      (!(strStartsWith n ".") || strStartsWith pat ".") &&
      globMatch pat.data n.data)).map (pyJoin root)

/-! ## handlers.py: regex matchers

Each Python regex of handlers.py is embedded as a backtracking matcher
with the engine's search order: the lazy `(.+?)` leading group tries the
shortest base first; alternations are tried left to right; greedy
quantifiers try the longest take first.  A greedy group whose follower
can never match after a shorter take (digits followed by `\.`, etc.) is
folded to its maximal take. -/

/-- `[A-Za-z0-9]`. -/
def isAlnumA (c : Char) : Bool := c.isAlpha || c.isDigit

/-- `(\.[^.]+)$`: the whole remaining input is a dot followed by one or
more non-dot characters. -/
def extCheck : List Char → Bool
  | c :: t => c == '.' && (!t.isEmpty && t.all (fun x => x != '.'))
  | [] => false

/-- `(\d+)(\.[^.]+)$`: maximal digit take, then the extension to the end
(a shorter digit take leaves a digit where the dot is required). -/
def frameThenExt (l : List Char) : Option (List Char × List Char) :=
  let f := l.takeWhile Char.isDigit
  if f.isEmpty then none
  else
    let r := l.drop f.length
    if extCheck r then some (f, r) else none

/-- Case-insensitive literal prefix match (`re.IGNORECASE`). -/
def ciPrefixMatch (word : List Char) (l : List Char) : Bool :=
  (l.take word.length).map Char.toLower == word

/-- Greedy `[A-Za-z0-9]{min,}` view take, longest first, followed by
`(\d+)(\.[^.]+)$`.  Called with the alnum-run length of the input. -/
def tryAlnumView (min : Nat) (rest : List Char) : Nat → Option (List Char × List Char × List Char)
  | 0 => none
  | k + 1 =>
    if k + 1 < min then none
    else
      match frameThenExt (rest.drop (k + 1)) with
      | some (f, e) => some (rest.take (k + 1), f, e)
      | none => tryAlnumView min rest k

/-- Variant 1 at a fixed base split:
`(?P<view>Left|Right|[A-Za-z0-9]{2,})?(?P<frame>\d+)(?P<ext>\.[^.]+)$`
with `re.IGNORECASE`; returns `(view, frame, ext)`, `view = []` when the
optional group is absent. -/
def v1Left (rest : List Char) : Option (List Char × List Char × List Char) :=
  if ciPrefixMatch ['l', 'e', 'f', 't'] rest then
    (frameThenExt (rest.drop 4)).map (fun fe => (rest.take 4, fe.1, fe.2))
  else none

def v1Right (rest : List Char) : Option (List Char × List Char × List Char) :=
  if ciPrefixMatch ['r', 'i', 'g', 'h', 't'] rest then
    (frameThenExt (rest.drop 5)).map (fun fe => (rest.take 5, fe.1, fe.2))
  else none

def v1TryAt (rest : List Char) : Option (List Char × List Char × List Char) :=
  match v1Left rest with
  | some r => some r
  | none =>
    match v1Right rest with
    | some r => some r
    | none =>
      match tryAlnumView 2 rest (rest.takeWhile isAlnumA).length with
      | some r => some r
      | none => (frameThenExt rest).map (fun fe => (([] : List Char), fe.1, fe.2))

/-- Variant 2 at a fixed base split:
`(?P<frame>\d+)[_-](?P<view>[A-Za-z0-9]+)(?P<ext>\.[^.]+)$`. -/
def v2TryAt (rest : List Char) : Option (List Char × List Char × List Char) :=
  let f := rest.takeWhile Char.isDigit
  if f.isEmpty then none
  else
    match rest.drop f.length with
    | s :: r2 =>
      if s == '_' || s == '-' then
        let v := r2.takeWhile isAlnumA
        if !v.isEmpty && extCheck (r2.drop v.length) then
          some (v, f, r2.drop v.length)
        else none
      else none
    | [] => none

/-- Variant 3 at a fixed base split:
`(?P<frame>\d+)(?P<view>[A-Za-z])(?P<ext>\.[^.]+)$`. -/
def v3TryAt (rest : List Char) : Option (List Char × List Char × List Char) :=
  let f := rest.takeWhile Char.isDigit
  if f.isEmpty then none
  else
    match rest.drop f.length with
    | v :: r2 => if v.isAlpha && extCheck r2 then some ([v], f, r2) else none
    | [] => none

/-- Variant 4 at a fixed base split:
`[_-](?P<view>[A-Za-z0-9]+)(?P<frame>\d+)(?P<ext>\.[^.]+)$`. -/
def v4TryAt (rest : List Char) : Option (List Char × List Char × List Char) :=
  match rest with
  | s :: r1 =>
    if s == '_' || s == '-' then
      tryAlnumView 1 r1 (r1.takeWhile isAlnumA).length
    else none
  | [] => none

/-- Greedy view take for variant 5, longest first: view, then `[_-]`,
then `(\d+)(\.[^.]+)$`. -/
def v5Desc (rest : List Char) : Nat → Option (List Char × List Char × List Char)
  | 0 => none
  | k + 1 =>
    let attempt : Option (List Char × List Char × List Char) :=
      match rest.drop (k + 1) with
      | s :: r2 =>
        if s == '_' || s == '-' then
          let f := r2.takeWhile Char.isDigit
          if !f.isEmpty && extCheck (r2.drop f.length) then
            some (rest.take (k + 1), f, r2.drop f.length)
          else none
        else none
      | [] => none
    match attempt with
    | some r => some r
    | none => v5Desc rest k

/-- Variant 5 at a fixed base split:
`(?P<view>[A-Za-z0-9]+)[_-](?P<frame>\d+)(?P<ext>\.[^.]+)$`. -/
def v5TryAt (rest : List Char) : Option (List Char × List Char × List Char) :=
  v5Desc rest (rest.takeWhile isAlnumA).length

/-- The named groups of a successful match. -/
structure MatchParts where
  base : List Char
  view : List Char
  frame : List Char
  ext : List Char
deriving Repr, DecidableEq

/-- The lazy `^(?P<base>.+?)` search: try the shortest nonempty base
first, extending one character at a time. -/
def lazyScanGo (tryAt : List Char → Option (List Char × List Char × List Char)) :
    List Char → List Char → Option MatchParts
  | base, [] => (tryAt []).map (fun r => ⟨base, r.1, r.2.1, r.2.2⟩)
  | base, c :: rs =>
    match tryAt (c :: rs) with
    | some r => some ⟨base, r.1, r.2.1, r.2.2⟩
    | none => lazyScanGo tryAt (base ++ [c]) rs

def lazyScan (tryAt : List Char → Option (List Char × List Char × List Char))
    (name : List Char) : Option MatchParts :=
  match name with
  | [] => none
  | c :: rest => lazyScanGo tryAt [c] rest

/-- `_view_pat_variants` (handlers.py): the five regex variants, tried in
order, first match wins. -/
def viewVariantsMatch (name : List Char) : Option MatchParts :=
  match lazyScan v1TryAt name with
  | some m => some m
  | none =>
    match lazyScan v2TryAt name with
    | some m => some m
    | none =>
      match lazyScan v3TryAt name with
      | some m => some m
      | none =>
        match lazyScan v4TryAt name with
        | some m => some m
        | none => lazyScan v5TryAt name

/-- `_plain_frame_pat` at a fixed base split: `(\d{3,})(\.[^.]+)$`. -/
def plainTryAt (rest : List Char) : Option (List Char × List Char × List Char) :=
  let f := rest.takeWhile Char.isDigit
  if 3 ≤ f.length && extCheck (rest.drop f.length) then
    some ([], f, rest.drop f.length)
  else none

/-- `_plain_frame_pat` (handlers.py): `^(?P<base>.+?)(?P<frame>\d{3,})(?P<ext>\.[^.]+)$`. -/
def _plain_frame_match (name : List Char) : Option MatchParts :=
  lazyScan plainTryAt name

/-- `_num_before_suffix_pat` at a fixed base split:
`(\d{3,})(_[A-Za-z0-9]+)(\.[^.]+)$`; the tag (with its underscore) is
returned in the `view` field. -/
def numBeforeTryAt (rest : List Char) : Option (List Char × List Char × List Char) :=
  let f := rest.takeWhile Char.isDigit
  if 3 ≤ f.length then
    match rest.drop f.length with
    | s :: r2 =>
      if s = '_' then
        let v := r2.takeWhile isAlnumA
        if !v.isEmpty && extCheck (r2.drop v.length) then
          some ('_' :: v, f, r2.drop v.length)
        else none
      else none
    | [] => none
  else none

/-- `_num_before_suffix_pat` (handlers.py). -/
def _num_before_suffix_match (name : List Char) : Option MatchParts :=
  lazyScan numBeforeTryAt name

/-- `\s+(\d{3,})(\.[^.]+)$`: maximal whitespace take, then the frame and
extension (a shorter whitespace take leaves whitespace where a digit is
required). -/
def wsFrameExt (l : List Char) : Option (List Char × List Char) :=
  let w := l.takeWhile pyIsSpace
  if w.isEmpty then none
  else
    let l2 := l.drop w.length
    let f := l2.takeWhile Char.isDigit
    if 3 ≤ f.length && extCheck (l2.drop f.length) then
      some (f, l2.drop f.length)
    else none

/-- Greedy optional-tag take for `_any_frame_pat`, longest first. -/
def anyTagDesc (r1 : List Char) : Nat → Option (List Char × List Char × List Char)
  | 0 => none
  | k + 1 =>
    match wsFrameExt (r1.drop (k + 1)) with
    | some (f, e) => some ('_' :: r1.take (k + 1), f, e)
    | none => anyTagDesc r1 k

/-- `_any_frame_pat` at a fixed base split:
`(?P<tag>_[A-Za-z0-9]+)?\s+(?P<frame>\d{3,})(?P<ext>\.[^.]+)$`, tag
(with its underscore) in the `view` field, `[]` when absent. -/
def anyFrameTryAt (rest : List Char) : Option (List Char × List Char × List Char) :=
  match rest with
  | c :: r1 =>
    if c = '_' then
      match anyTagDesc r1 (r1.takeWhile isAlnumA).length with
      | some r => some r
      | none => (wsFrameExt (c :: r1)).map (fun fe => (([] : List Char), fe.1, fe.2))
    else (wsFrameExt (c :: r1)).map (fun fe => (([] : List Char), fe.1, fe.2))
  | [] => none

/-- `_any_frame_pat` (handlers.py). -/
def _any_frame_match (name : List Char) : Option MatchParts :=
  lazyScan anyFrameTryAt name

/-! ## handlers.py: stereo renamer -/

/-- `_parse_extra_tags` (handlers.py): split on whitespace/comma/semicolon,
uppercase, keep `A-Z0-9`, drop empties, duplicates and the reserved
`L`/`R`/`LEFT`/`RIGHT`. -/
def _parse_extra_tags (raw : String) : List String :=
  let pieces := chunksBy (fun c => pyIsSpace c || c == ',' || c == ';') raw.data []
  pieces.foldl (fun tags piece =>
    let p2 := ((stripWS piece).map Char.toUpper).filter (fun c => c.isUpper || c.isDigit)
    if p2.isEmpty then tags
    else
      let s := String.mk p2
      if tags.contains s || s ∈ ["L", "R", "LEFT", "RIGHT"] then tags
      else tags ++ [s]) []

/-- `_EXT_MAP.get(job.file_format or 'PNG', '')` (handlers.py). -/
def extForFormat (fmt : String) : String :=
  let f := if fmt = "" then "PNG" else fmt
  if f = "PNG" then ".png"
  else if f = "JPEG" then ".jpg"
  else if f = "BMP" then ".bmp"
  else if f = "TIFF" then ".tif"
  else if f = "OPEN_EXR" then ".exr"
  else ""

/-- Base-token de-duplication of the renamer: strip `'_ .'`, split on runs
of `[_.]`, collapse consecutive case-insensitive repeats, join with `_`. -/
def dedupBaseTokens (base : List Char) : String :=
  let parts := chunksBy (fun c => c == '_' || c == '.') (stripSet ['_', ' ', '.'] base) []
  let dedup := parts.foldl (fun acc p =>
    match acc.getLast? with
    | some lastp =>
      if lastp.map Char.toLower = p.map Char.toLower then acc else acc ++ [p]
    | none => acc ++ [p]) []
  String.intercalate "_" (dedup.map String.mk)

/-- The rename attempt of pass 1: delete an existing target file first
(`os.remove` of a directory raises and, with the subsequent `os.replace`
failure, is swallowed), then overwrite-rename. -/
def renameStep (fs : FS) (root oldName newName : String) : FS :=
  let newPath := pyJoin root newName
  if fs.isdir newPath then fs
  else
    let fs1 := if fs.isfile newPath then fs.removeFile newPath else fs
    fs1.replaceFile (pyJoin root oldName) newPath

/-- The view-token normalization of pass 1: recognized `L`/`R`/extra
tags, `none` for anything else. -/
def process1Tok (extra_tags : List String) (m : MatchParts) : Option String :=
  let view_norm := String.mk (m.view.map Char.toUpper)
  if view_norm = "LEFT" ∨ view_norm = "L" then some "L"
  else if view_norm = "RIGHT" ∨ view_norm = "R" then some "R"
  else if extra_tags.contains view_norm then some view_norm
  else none

/-- The matched-name branch of pass 1: rename a recognized view tag into
`<dedupbase>_<TAG> <frame><ext>`, skip unknown tags. -/
def process1Apply (extra_tags : List String) (root : String)
    (st : FS × List String) (path : String) (nam : String) (m : MatchParts) :
    FS × List String :=
  match process1Tok extra_tags m with
  | none => st
  | some view_token =>
    let clean_base := dedupBaseTokens m.base
    let new_name :=
      clean_base ++ "_" ++ view_token ++ " " ++ String.mk m.frame ++ String.mk m.ext
    let fs2 := if new_name ≠ nam then renameStep st.1 root nam new_name else st.1
    (fs2, st.2 ++ [path])

/-- Pass 1 of `_stereo_rename` for one globbed path: match the name
against the view-pattern variants, normalize a recognized view tag,
skip unknown tags. -/
def process1 (extra_tags : List String) (root : String)
    (st : FS × List String) (path : String) : FS × List String :=
  if st.2.contains path || !(st.1.isfile path) then st
  else
    let nam := _basename path
    match viewVariantsMatch nam.data with
    | none => st
    | some m => process1Apply extra_tags root st path nam m

/-- Pass 1 of `_stereo_rename`: iterate roots, patterns and glob results. -/
def pass1 (extra_tags : List String) (patterns : List String)
    (roots : List String) (fs : FS) : FS × List String :=
  roots.foldl (fun st root =>
    patterns.foldl (fun st pat =>
      (st.1.glob root pat).foldl (process1 extra_tags root) st) st) (fs, [])

/-- The number-before-suffix rewrite step of pass 2: returns the updated
filesystem and current name. -/
def process2Step1 (fs : FS) (dirp name0 : String) (path : String) : FS × String :=
  match _num_before_suffix_match name0.data with
  | some mp =>
    let nnb := String.mk mp.base ++ String.mk mp.view ++ " " ++
      String.mk mp.frame ++ String.mk mp.ext
    if nnb ≠ name0 then
      let npath := pyJoin dirp nnb
      if fs.isdir npath then (fs, name0)
      else
        let fsA := if fs.isfile npath then fs.removeFile npath else fs
        (fsA.replaceFile path npath, nnb)
    else (fs, name0)
  | none => (fs, name0)

/-- The matched-name branch of the space-before-frame rewrite of pass 2. -/
def process2PlainSome (fs1 : FS) (dirp path name1 : String) (pm : MatchParts) : FS :=
  let base := String.mk pm.base
  if strEndsWith base " " then fs1
  else if strEndsWith base "_L" || strEndsWith base "_R" then fs1
  else
    let nn := base ++ " " ++ String.mk pm.frame ++ String.mk pm.ext
    if nn ≠ name1 then
      let npath := pyJoin dirp nn
      if fs1.isdir npath then fs1
      else
        let fsB := if fs1.isfile npath then fs1.removeFile npath else fs1
        fsB.replaceFile path npath
    else fs1

/-- The space-before-frame rewrite of pass 2. -/
def process2Plain (fs1 : FS) (dirp path name1 : String) : FS :=
  match _plain_frame_match name1.data with
  | none => fs1
  | some pm => process2PlainSome fs1 dirp path name1 pm

/-- Pass 2 of `_stereo_rename` for one plain candidate: first the
number-before-suffix rewrite, then the space-before-frame rewrite.  The
source renames the second time from the original `path` variable, which is
stale if the first rewrite fired; `os.replace` then raises and is
swallowed (after the pre-delete of the target). -/
def process2 (processed : List String) (fs : FS) (path : String) : FS :=
  if processed.contains path || !(fs.isfile path) then fs
  else
    let dirp := _dirname path
    let name0 := _basename path
    let step1 := process2Step1 fs dirp name0 path
    process2Plain step1.1 dirp path step1.2

/-- The per-frame index entries of pass 3: recognized view tags and plain
file names, keyed by `(root, frame string)`. -/
abbrev FrameIndex := List ((String × String) × (List String × List String))

/-- `frame_index.setdefault(key, ...)` plus update. -/
def fiUpdate (fi : FrameIndex) (key : String × String)
    (upd : List String × List String → List String × List String) : FrameIndex :=
  if fi.any (fun e => e.1 == key) then
    fi.map (fun e => if e.1 == key then (e.1, upd e.2) else e)
  else fi ++ [(key, upd ([], []))]

/-- Pass 3 classification of one directory entry (handlers.py lines
462-491): names of the job extension are split at the last space; a
digit-led remainder with a recognized `_TAG` before it registers a view,
otherwise a `_plain_frame_pat` match registers a plain file. -/
def classify (extra_tags : List String) (ext : String) (root : String)
    (fi : FrameIndex) (f : String) : FrameIndex :=
  if !(strEndsWith (lowerStr f) ext) then fi
  else
    let afterL := (f.data.reverse.takeWhile (fun c => c != ' ')).reverse
    let beforeL := ((f.data.reverse.dropWhile (fun c => c != ' ')).reverse).dropLast
    let frameL := afterL.takeWhile (fun c => c != '.')
    if f.data.contains ' ' ∧ !frameL.isEmpty ∧ frameL.all Char.isDigit then
      let key := (root, String.mk frameL)
      let tag_candidate : Option String :=
        if beforeL.contains '_' then
          some (String.mk ((beforeL.reverse.takeWhile (fun c => c != '_')).reverse))
        else none
      match tag_candidate with
      | some t =>
        if t = "L" ∨ t = "R" ∨ extra_tags.contains t then
          fiUpdate fi key (fun e => (if e.1.contains t then e.1 else e.1 ++ [t], e.2))
        else
          match _plain_frame_match f.data with
          | some _ => fiUpdate fi key (fun e => (e.1, e.2 ++ [f]))
          | none => fi
      | none =>
        match _plain_frame_match f.data with
        | some _ => fiUpdate fi key (fun e => (e.1, e.2 ++ [f]))
        | none => fi
    else
      match _plain_frame_match f.data with
      | some pm => fiUpdate fi (root, String.mk pm.frame) (fun e => (e.1, e.2 ++ [f]))
      | none => fi

/-- The search roots shared by `_stereo_rename` and `_rebase_numbering`:
the base render directory, the job root, and the first-level
subdirectories of the job root. -/
def searchRoots (fs : FS) (bdir : String) : List String :=
  let job_root := _dirname (rstripSlashes bdir)
  [bdir] ++
    (if fs.isdir job_root then
      [job_root] ++
        ((fs.listdir job_root).filter (fun e => fs.isdir (pyJoin job_root e))).map
          (pyJoin job_root)
    else [])

/-- `_stereo_rename` (handlers.py): the three passes over the search
roots.  Outcomes of swallowed exceptions are no-ops; the per-file
`os.remove` of pass 3 has its own `try`, so a failure skips only that
deletion. -/
def _stereo_rename (job : RQM_Job) (fs : FS) : FS :=
  let bdir := base_render_dir job
  if !(fs.isdir bdir) then fs
  else
    let roots := searchRoots fs bdir
    let ext := extForFormat job.file_format
    let extra_tags := _parse_extra_tags job.stereo_extra_tags
    let patterns :=
      ["*Left*" ++ ext, "*Right*" ++ ext, "*_L" ++ ext, "*_R" ++ ext,
       "*-L" ++ ext, "*-R" ++ ext, "*L" ++ ext, "*R" ++ ext] ++
      extra_tags.foldr (fun tag acc =>
        ["*_" ++ tag ++ ext, "*-" ++ tag ++ ext,
         "*" ++ tag ++ "*" ++ ext, "*" ++ tag ++ ext] ++ acc) []
    let plain_candidates := roots.foldr (fun root acc => fs.glob root ("*" ++ ext) ++ acc) []
    let p1 := pass1 extra_tags patterns roots fs
    let fs2 := plain_candidates.foldl (process2 p1.2) p1.1
    let fi := roots.foldl (fun fi root =>
      (fs2.listdir root).foldl (classify extra_tags ext root) fi) []
    let expected := ["L", "R"] ++ extra_tags
    if job.stereo_keep_plain then fs2
    else
      fi.foldl (fun fs e =>
        if expected.all (fun t => e.2.1.contains t) && !e.2.2.isEmpty then
          e.2.2.foldl (fun fs fname =>
            let p := pyJoin e.1.1 fname
            if fs.isfile p then fs.removeFile p else fs) fs
        else fs) fs2

/-! ## handlers.py: frame-range resolution and rebasing -/

/-- A scene as seen by `_compute_src_range`: name and timeline markers. -/
structure SceneModel where
  name : String
  timeline_markers : List (String × Int)
deriving Repr, DecidableEq

def findMarker (scn : SceneModel) (nm : String) : Option Int :=
  (scn.timeline_markers.find? (fun e => e.1 == nm)).map (fun e => e.2)

/-- `_compute_src_range` (handlers.py): marker-linked or explicit frame
range of a job, end clamped to the start. -/
def _compute_src_range (scenes : List SceneModel) (job : RQM_Job) : Int × Int :=
  let scnOpt := scenes.find? (fun s => s.name == job.scene_name)
  let msOf := fun (sc : SceneModel) (nm : String) =>
    if nm ≠ "" then findMarker sc nm else none
  let se : Int × Int :=
    match scnOpt with
    | some sc =>
      if job.link_timeline_markers then
        ((match msOf sc job.marker_name with
          | some f => f + job.marker_offset
          | none => job.frame_start),
         (match msOf sc job.end_marker_name with
          | some f => f + job.end_marker_offset
          | none => job.frame_end))
      else
        ((if job.link_marker then
            match msOf sc job.marker_name with
            | some f => f + job.marker_offset
            | none => job.frame_start
          else job.frame_start),
         (if job.link_end_marker then
            match msOf sc job.end_marker_name with
            | some f => f + job.end_marker_offset
            | none => job.frame_end
          else job.frame_end))
    | none => (job.frame_start, job.frame_end)
  (se.1, if se.2 < se.1 then se.1 else se.2)

/-- Numeric value of a digit string (`int(...)` on a `\d+` match). -/
def digitsVal (l : List Char) : Nat :=
  l.foldl (fun acc c => acc * 10 + (c.toNat - '0'.toNat)) 0

/-- Decimal digits of a natural number, most significant first (fuelled;
`n + 1` steps suffice since the argument is divided by ten each step). -/
def natToDigitsAux : Nat → Nat → List Char → List Char
  | 0, _, acc => acc
  | fuel + 1, n, acc =>
    let d := Char.ofNat (48 + n % 10)
    if n < 10 then d :: acc else natToDigitsAux fuel (n / 10) (d :: acc)

/-- `str(n)` for a natural number. -/
def natToDigits (n : Nat) : List Char := natToDigitsAux (n + 1) n []

/-- `str(n).zfill(width)` for a natural number. -/
def zfill (width : Nat) (n : Nat) : List Char :=
  let s := natToDigits n
  List.replicate (width - s.length) '0' ++ s

/-- `_rebase_numbering` (handlers.py): rename `<prefix>[_TAG] <frame><ext>`
files whose frame lies in the source range so numbering starts at zero,
zero-padded to the original digit-field width. -/
def _rebase_numbering (scenes : List SceneModel) (job : RQM_Job) (fs : FS) : FS :=
  let r := _compute_src_range scenes job
  let src_start := r.1
  let src_end := r.2
  let bdir := base_render_dir job
  if !(fs.isdir bdir) then fs
  else
    let roots := searchRoots fs bdir
    roots.foldl (fun fs root =>
      (fs.listdir root).foldl (fun fs fname =>
        match _any_frame_match fname.data with
        | none => fs
        | some m =>
          let frame_no : Int := (digitsVal m.frame : Nat)
          if frame_no < src_start ∨ src_end < frame_no then fs
          else
            let new_frame := zfill m.frame.length (frame_no - src_start).toNat
            let new_name := String.mk m.base ++ String.mk m.view ++ " " ++
              String.mk new_frame ++ String.mk m.ext
            if new_name = fname then fs
            else
              let dst := pyJoin root new_name
              if fs.isdir dst then fs
              else
                let fs1 := if fs.pathExists dst then fs.removeFile dst else fs
                fs1.replaceFile (pyJoin root fname) dst) fs) fs

/-- The C4 counterexample job: an output path containing the invalid
character `?`. -/
def c4job : RQM_Job := { name := "Shot", output_path := "out?put" }

/-- The C3 job: name `Shot010`, output `//renders/`, empty filename base,
job-name folder-suffix option disabled (its default). -/
def c3job : RQM_Job := { name := "Shot010", output_path := "//renders/", file_basename := "" }

/-- The Boolean increment condition of the handlers, on the pre-state. -/
def handlerInc (s : QState) : Bool :=
  s.running && s.render_in_progress && !s.skip_increment_once &&
    decide (s.current_job_index < (s.queue.length : Int))

/-- The start state of the C2 witness run: a freshly started one-job
queue. -/
def w2state0 : QState :=
  { queue := [{}], running := true, current_job_index := 0,
    render_in_progress := false, skip_increment_once := false }

/-- The C2 witness mid-render state: one successful dispatch tick after
start. -/
def w2state1 : QState := qstep (.tick true true true) w2state0

/-- The C6/C7 example job: base render directory `out/Job/base`, PNG
output, plain-file fallback disabled, no extra view tags. -/
def c6job : RQM_Job := { name := "Job", output_path := "//out/", stereo_keep_plain := false }

/-- The C6 example filesystem: the base render directory containing
exactly the three example files. -/
def c6fs : FS :=
  { dirs := ["out/Job/base"],
    files := [("out/Job/base",
      ["SceneCamLeft0001.png", "SceneCamRight0001.png", "SceneCam0001.png"])] }

/-- The C7 counterexample filesystem: an already-normalized file set with
both view-tagged files and the plain fallback for the same frame. -/
def c7fs : FS :=
  { dirs := ["out/Job/base"],
    files := [("out/Job/base",
      ["SceneCam_L 0001.png", "SceneCam_R 0001.png", "SceneCam 0001.png"])] }

/-- The C8 job: explicit (unlinked) source frame range, default paths. -/
def c8job (s e : Int) : RQM_Job :=
  { name := "Job", output_path := "//out/", frame_start := s, frame_end := e }

/-- A filesystem whose base render directory holds exactly one file. -/
def c8fs (nm : String) : FS :=
  { dirs := ["out/Job/base"], files := [("out/Job/base", [nm])] }

/-- The C7 job: same example paths, but keeping plain frame files. -/
def c7job : RQM_Job :=
  { name := "Job", output_path := "//out/", stereo_keep_plain := true }

/-- A filesystem whose base render directory holds exactly the given
files. -/
def c7Fs (names : List String) : FS :=
  { dirs := ["out/Job/base"], files := [("out/Job/base", names)] }

/-- The normalized file-name shape of the spec sentence behind C7:
`<prefix> <frame><ext>`, the prefix covering both `<base>` and
`<base>_<TAG>`.  The prefix is nonempty and does not end in whitespace,
the frame is a nonempty digit run, the extension is nonempty and free of
dots and spaces, and the name (a directory entry) holds no slash. -/
def spec_normalized_name (nm : String) : Prop :=
  ∃ P F T : List Char, nm.data = P ++ ' ' :: (F ++ '.' :: T) ∧
    P ≠ [] ∧ (∀ c, P.getLast? = some c → pyIsSpace c = false) ∧
    (∀ c ∈ F, c.isDigit = true) ∧ F ≠ [] ∧
    T ≠ [] ∧ '.' ∉ T ∧ ' ' ∉ T ∧ (∀ c ∈ nm.data, c ≠ '/')

/-- The per-file body of `_rebase_numbering` on the single-file example
filesystem: range check, new name, target checks, overwrite-rename. -/
def rebaseBody (s e : Int) (nm : String) (m : MatchParts) : FS :=
  let src_end := if e < s then s else e
  let frame_no : Int := (digitsVal m.frame : Nat)
  if frame_no < s ∨ src_end < frame_no then c8fs nm
  else
    let new_frame := zfill m.frame.length (frame_no - s).toNat
    let new_name := String.mk m.base ++ String.mk m.view ++ " " ++
      String.mk new_frame ++ String.mk m.ext
    if new_name = nm then c8fs nm
    else
      let dst := pyJoin "out/Job/base" new_name
      if (c8fs nm).isdir dst then c8fs nm
      else
        let fs1 := if (c8fs nm).pathExists dst then (c8fs nm).removeFile dst else c8fs nm
        fs1.replaceFile (pyJoin "out/Job/base" nm) dst

/-! ### Lemmas about sanitization -/

theorem mem_stripWS {c : Char} {l : List Char} (h : c ∈ stripWS l) : c ∈ l := by
  unfold stripWS at h
  rw [List.mem_reverse] at h
  have h2 := (List.dropWhile_sublist _).mem h
  rw [List.mem_reverse] at h2
  exact (List.dropWhile_sublist _).mem h2

theorem mem_rstripChar {c x : Char} {l : List Char} (h : c ∈ rstripChar x l) : c ∈ l := by
  unfold rstripChar at h
  rw [List.mem_reverse] at h
  have h2 := (List.dropWhile_sublist _).mem h
  rwa [List.mem_reverse] at h2

theorem mem_collapseWS {c : Char} {l : List Char} (h : c ∈ collapseWS l) :
    c = ' ' ∨ c ∈ l := by
  induction l with
  | nil => simp [collapseWS] at h
  | cons a t ih =>
    match t, ih with
    | [], _ =>
      simp only [collapseWS, List.mem_singleton] at h
      by_cases ha : pyIsSpace a
      · simp [ha] at h; exact Or.inl h
      · simp [ha] at h; exact Or.inr (by simp [h])
    | b :: t', ih =>
      simp only [collapseWS] at h
      by_cases hab : pyIsSpace a && pyIsSpace b
      · rw [if_pos hab] at h
        rcases ih h with h1 | h1
        · exact Or.inl h1
        · exact Or.inr (List.mem_cons_of_mem _ h1)
      · rw [if_neg hab] at h
        rcases List.mem_cons.1 h with h1 | h1
        · by_cases ha : pyIsSpace a
          · simp [ha] at h1; exact Or.inl h1
          · simp [ha] at h1; exact Or.inr (by simp [h1])
        · rcases ih h1 with h2 | h2
          · exact Or.inl h2
          · exact Or.inr (List.mem_cons_of_mem _ h2)

theorem untitled_no_invalid : ∀ x ∈ ("untitled" : String).data, x ∉ INVALID_CHARS := by
  decide

theorem sanitize_no_invalid (s : String) :
    ∀ c ∈ (_sanitize_component s).data, c ∉ INVALID_CHARS := by
  intro c hc
  unfold _sanitize_component at hc
  set n1 := stripWS s.data with hn1
  set n2 := n1.map (fun c => if c ∈ INVALID_CHARS then '_' else c) with hn2
  set n3 := rstripChar '.' (stripWS (collapseWS n2)) with hn3
  have key : ∀ x ∈ n3, x ∉ INVALID_CHARS := by
    intro x hx hinv
    have hx2 := mem_rstripChar hx
    have hx3 := mem_stripWS hx2
    rcases mem_collapseWS hx3 with h | h
    · subst h; revert hinv; decide
    · rw [hn2, List.mem_map] at h
      obtain ⟨a, _, ha2⟩ := h
      by_cases hca : a ∈ INVALID_CHARS
      · rw [if_pos hca] at ha2; subst ha2; revert hinv; decide
      · rw [if_neg hca] at ha2; subst ha2; exact hca hinv
  by_cases hempty : n3.isEmpty
  · simp only [hempty, if_pos] at hc
    exact untitled_no_invalid c hc
  · simp only [hempty, Bool.false_eq_true, if_false] at hc
    by_cases hres : upperStr (String.mk n3) ∈ _reserved
    · simp only [hres, if_pos] at hc
      rw [String.data_append, String.data_append] at hc
      have hmk : (String.mk n3).data = n3 := rfl
      have hu : ("_" : String).data = ['_'] := rfl
      rw [hmk, hu] at hc
      rcases List.mem_append.1 hc with h | h
      · rcases List.mem_append.1 h with h1 | h1
        · have : c = '_' := by simpa using h1
          subst this; decide
        · exact key c h1
      · have : c = '_' := by simpa using h
        subst this; decide
    · simp only [hres, if_neg, Bool.false_eq_true, if_false] at hc
      exact key c hc

theorem head?_dropWhile_not (p : Char → Bool) :
    ∀ (l : List Char) (x : Char), (l.dropWhile p).head? = some x → p x = false := by
  intro l
  induction l with
  | nil => intro x h; simp [List.dropWhile] at h
  | cons a t ih =>
    intro x h
    by_cases ha : p a
    · rw [List.dropWhile_cons_of_pos ha] at h; exact ih x h
    · rw [List.dropWhile_cons_of_neg ha] at h
      simp at h; subst h; simpa using ha

theorem rstripChar_getLast_ne (c : Char) (l : List Char) (x : Char)
    (h : (rstripChar c l).getLast? = some x) : x ≠ c := by
  unfold rstripChar at h
  rw [List.getLast?_reverse] at h
  have := head?_dropWhile_not (fun y => y == c) _ _ h
  simpa using this

theorem sanitize_ne_empty (s : String) : _sanitize_component s ≠ "" := by
  unfold _sanitize_component
  set n3 := rstripChar '.' (stripWS (collapseWS
    ((stripWS s.data).map (fun c => if c ∈ INVALID_CHARS then '_' else c)))) with hn3
  by_cases hempty : n3.isEmpty
  · simp only [hempty, if_pos]; decide
  · simp only [hempty, Bool.false_eq_true, if_false]
    by_cases hres : upperStr (String.mk n3) ∈ _reserved
    · simp only [hres, if_pos]
      intro h
      have := congrArg String.data h
      rw [String.data_append, String.data_append] at this
      simp at this
    · simp only [hres, if_neg, Bool.false_eq_true, if_false]
      intro h
      have := congrArg String.data h
      have h2 : n3 = [] := this
      rw [h2] at hempty
      simp at hempty

theorem sanitize_getLast_ne_dot (s : String) :
    ∀ x, (_sanitize_component s).data.getLast? = some x → x ≠ '.' := by
  intro x hx
  unfold _sanitize_component at hx
  set n3 := rstripChar '.' (stripWS (collapseWS
    ((stripWS s.data).map (fun c => if c ∈ INVALID_CHARS then '_' else c)))) with hn3
  by_cases hempty : n3.isEmpty
  · simp only [hempty, if_pos] at hx
    have hxe : 'd' = x := by simpa using hx
    subst hxe; decide
  · simp only [hempty, Bool.false_eq_true, if_false] at hx
    by_cases hres : upperStr (String.mk n3) ∈ _reserved
    · simp only [hres, if_pos] at hx
      rw [String.data_append, String.data_append] at hx
      have hcat : (("_" : String).data ++ (String.mk n3).data) ++ ("_" : String).data
          = (("_" : String).data ++ (String.mk n3).data) ++ ['_'] := rfl
      rw [hcat, List.getLast?_concat] at hx
      have hxe : '_' = x := by simpa using hx
      subst hxe; decide
    · simp only [hres, if_neg, Bool.false_eq_true, if_false] at hx
      exact rstripChar_getLast_ne '.' _ x hx

theorem sanitize_not_reserved (s : String) :
    upperStr (_sanitize_component s) ∉ _reserved := by
  unfold _sanitize_component
  set n3 := rstripChar '.' (stripWS (collapseWS
    ((stripWS s.data).map (fun c => if c ∈ INVALID_CHARS then '_' else c)))) with hn3
  by_cases hempty : n3.isEmpty
  · simp only [hempty, if_pos]; decide
  · simp only [hempty, Bool.false_eq_true, if_false]
    by_cases hres : upperStr (String.mk n3) ∈ _reserved
    · simp only [hres, if_pos]
      intro hmem
      have hdata : (upperStr ("_" ++ String.mk n3 ++ "_")).data.head? = some '_' := by
        show ((("_" ++ String.mk n3 ++ "_").data).map Char.toUpper).head? = some '_'
        rw [String.data_append, String.data_append]
        have : (("_" : String).data ++ (String.mk n3).data ++ ("_" : String).data)
            = '_' :: (n3 ++ ['_']) := rfl
        rw [this]
        rfl
      have hall : ∀ r ∈ _reserved, r.data.head? ≠ some '_' := by decide
      exact hall _ hmem hdata
    · rw [if_neg hres]
      exact hres

theorem sanitize_ne_dot (s : String) : _sanitize_component s ≠ "." := by
  intro h
  have := sanitize_getLast_ne_dot s '.'
  rw [h] at this
  exact this rfl rfl

theorem sanitize_ne_dotdot (s : String) : _sanitize_component s ≠ ".." := by
  intro h
  have := sanitize_getLast_ne_dot s '.'
  rw [h] at this
  exact this rfl rfl

/-- C5: for every input string, `_sanitize_component` removes every
filesystem-invalid character of `<>:"/\|?*` (each is replaced by `_`) and
never returns an OS-reserved device name (CON, PRN, AUX, NUL, COM1-9,
LPT1-9, case-insensitively) unwrapped; in particular the empty string maps
to `untitled` and `CON` maps to `_CON_`. -/
theorem C5_sanitize_component :
    (∀ s : String, (∀ c ∈ (_sanitize_component s).data, c ∉ INVALID_CHARS) ∧
      upperStr (_sanitize_component s) ∉ _reserved) ∧
    _sanitize_component "" = "untitled" ∧
    _sanitize_component "CON" = "_CON_" :=
  ⟨fun s => ⟨sanitize_no_invalid s, sanitize_not_reserved s⟩, by decide, by decide⟩

theorem joinSep_chars {parts : List String} {c : Char}
    (h : c ∈ (joinSep parts).data) : c = '/' ∨ ∃ p ∈ parts, c ∈ p.data := by
  induction parts with
  | nil => simp [joinSep] at h
  | cons p rest ih =>
    cases rest with
    | nil => exact Or.inr ⟨p, by simp, h⟩
    | cons q rs =>
      have hj : joinSep (p :: q :: rs) = p ++ "/" ++ joinSep (q :: rs) := rfl
      rw [hj, String.data_append, String.data_append] at h
      rcases List.mem_append.1 h with h1 | h1
      · rcases List.mem_append.1 h1 with h2 | h2
        · exact Or.inr ⟨p, by simp, h2⟩
        · have : c = '/' := by simpa using h2
          exact Or.inl this
      · rcases ih h1 with h2 | ⟨w, hw1, hw2⟩
        · exact Or.inl h2
        · exact Or.inr ⟨w, by simp [hw1], hw2⟩

theorem head?_append_left {a b : List Char} (h : a ≠ []) :
    (a ++ b).head? = a.head? := by
  cases a with
  | nil => exact absurd rfl h
  | cons x xs => rfl

theorem joinSep_head {p : String} {rest : List String} (hp : p.data ≠ []) :
    (joinSep (p :: rest)).data.head? = p.data.head? := by
  cases rest with
  | nil => rfl
  | cons q rs =>
    have hj : joinSep (p :: q :: rs) = p ++ "/" ++ joinSep (q :: rs) := rfl
    rw [hj, String.data_append, String.data_append, List.append_assoc]
    exact head?_append_left hp

theorem data_ne_of_ne_empty {p : String} (h : p ≠ "") : p.data ≠ [] := by
  intro hd
  exact h (by cases p with | mk l => cases hd; rfl)

/-- C10: `_sanitize_subpath` splits on separator runs, discards empty,
`.` and `..` components and sanitizes the rest, so its result decomposes
into separator-free components none of which is `.` or `..`, never starts
with a separator, contains no `:` or `\`, and when nonempty
`os.path.join(base, result)` literally extends `base ++ "/"` — a
token-expanded extra subfolder appended by `resolve_base_dir` cannot
resolve outside the chosen base directory. -/
theorem C10_sanitize_subpath (s : String) :
    (∃ parts : List String,
      _sanitize_subpath s = joinSep parts ∧
      ∀ p ∈ parts, p ≠ "" ∧ p ≠ "." ∧ p ≠ ".." ∧ ∀ c ∈ p.data, c ∉ INVALID_CHARS) ∧
    (_sanitize_subpath s).data.head? ≠ some '/' ∧
    (∀ c ∈ (_sanitize_subpath s).data, c ≠ ':' ∧ c ≠ '\\') ∧
    (∀ base : String, _sanitize_subpath s ≠ "" → base ≠ "" →
      strEndsWith base "/" = false →
      pyJoin base (_sanitize_subpath s) = base ++ "/" ++ _sanitize_subpath s) := by
  set parts := ((chunksBy isSlash s.data []).filter
    (fun p => p ≠ ['.'] && p ≠ ['.', '.'])).map
    (fun p => _sanitize_component (String.mk p)) with hparts
  have hdef : _sanitize_subpath s = joinSep parts := rfl
  have hprops : ∀ p ∈ parts, p ≠ "" ∧ p ≠ "." ∧ p ≠ ".." ∧
      ∀ c ∈ p.data, c ∉ INVALID_CHARS := by
    intro p hp
    rw [hparts, List.mem_map] at hp
    obtain ⟨a, _, rfl⟩ := hp
    exact ⟨sanitize_ne_empty _, sanitize_ne_dot _, sanitize_ne_dotdot _,
      sanitize_no_invalid _⟩
  have hhead : (_sanitize_subpath s).data.head? ≠ some '/' := by
    rw [hdef]
    cases hp : parts with
    | nil => simp [joinSep]
    | cons p rest =>
      have hp0 := hprops p (by rw [hp]; simp)
      rw [joinSep_head (data_ne_of_ne_empty hp0.1)]
      intro hhd
      have hmem : '/' ∈ p.data := by
        cases hq : p.data with
        | nil => rw [hq] at hhd; simp at hhd
        | cons x xs =>
          rw [hq] at hhd
          simp at hhd
          subst hhd
          exact List.mem_cons_self _ _
      exact hp0.2.2.2 '/' hmem (by decide)
  refine ⟨⟨parts, hdef, hprops⟩, hhead, ?_, ?_⟩
  · intro c hc
    rw [hdef] at hc
    rcases joinSep_chars hc with h | ⟨p, hp, hcp⟩
    · subst h; exact ⟨by decide, by decide⟩
    · have := (hprops p hp).2.2.2 c hcp
      constructor
      · intro h; subst h; exact this (by decide)
      · intro h; subst h; exact this (by decide)
  · intro base hne hbase hslash
    have hsw : strStartsWith (_sanitize_subpath s) "/" = false := by
      unfold strStartsWith
      cases hq : (_sanitize_subpath s).data with
      | nil => rfl
      | cons x xs =>
        have hx : ¬ x = '/' := by
          intro h
          apply hhead
          rw [hq, h]
          rfl
        show (['/'].isPrefixOf (x :: xs)) = false
        simp [List.isPrefixOf]
        intro h
        exact absurd h.symm hx
    unfold pyJoin
    rw [hsw]
    simp only [Bool.false_eq_true, if_false]
    rw [if_neg hbase, hslash]
    simp

/-- C4 is false as stated: `job_root_dir` does not pass `output_path`
through component sanitization; with `output_path = "out?put"` the job
root keeps the `?` while the claimed formula replaces it by `_`. -/
theorem C4_counterexample :
    job_root_dir c4job ≠
      pyJoin (_sanitize_component c4job.output_path) (_sanitize_component c4job.name) := by
  decide

/-- C4 (amended): the job root is `bpy.path.abspath(output_path)` joined
with the sanitized job name (`'job'` when the name is empty); only the
job-name component is sanitized (it contains no invalid character and is
never a bare reserved device name), the output path is used as resolved. -/
theorem C4_amended (job : RQM_Job) :
    ∃ s : String,
      job_root_dir job = pyJoin (bpy_path_abspath job.output_path) s ∧
      s = _sanitize_component (if job.name = "" then "job" else job.name) ∧
      (∀ c ∈ s.data, c ∉ INVALID_CHARS) ∧ upperStr s ∉ _reserved :=
  ⟨safeJobName job, rfl, rfl, sanitize_no_invalid _, sanitize_not_reserved _⟩

/-- C3 (code-bug evaluation): the base render directory resolves to
`renders/Shot010/base` as claimed, but the filename prefix computed by the
code for an empty filename base is `"Shot010_untitled "`, not
`"Shot010_base "` or `"Shot010 "`: `_sanitize_component('')` is
`'untitled'`, which is truthy, so the derive-from-folders branch that the
`file_basename` property documents ("Leave blank to derive from folders")
is unreachable.  The call mirrors `apply_job` (jobs.py line 196):
`job_file_prefix(job, bdir, 'base')`. -/
theorem C3_eval :
    base_render_dir c3job = "renders/Shot010/base" ∧
    jobFilePrefixFn c3job (base_render_dir c3job) ["base"] = "Shot010_untitled " ∧
    jobFilePrefixFn c3job (base_render_dir c3job) ["base"] ≠ "Shot010_base " ∧
    jobFilePrefixFn c3job (base_render_dir c3job) ["base"] ≠ "Shot010 " :=
  ⟨by decide, by decide, by decide, by decide⟩

/-- C9: `_ensure_dir` is total (the embedding is a total function; every
exception path of the source returns `(False, str(e))`): it returns
`(True, None)` and leaves the filesystem unchanged when the path already
exists, returns `(True, None)` whenever creation succeeds (also for the
empty path, which short-circuits the `if path` guard), and on a creation
failure returns `(False, e)` with the error message and an unchanged
filesystem. -/
theorem C9_ensure_dir (paths : List String) (createOk : Bool) (msg path : String) :
    (path ∈ paths →
      _ensure_dir paths createOk msg path = (paths, (true, none))) ∧
    (createOk = true → (_ensure_dir paths createOk msg path).2 = (true, none)) ∧
    (path ≠ "" → path ∉ paths → createOk = false →
      _ensure_dir paths createOk msg path = (paths, (false, some msg))) := by
  refine ⟨?_, ?_, ?_⟩
  · intro h
    unfold _ensure_dir
    rw [if_neg]
    intro hc
    exact hc.2 h
  · intro h
    unfold _ensure_dir
    subst h
    by_cases hcond : path ≠ "" ∧ path ∉ paths
    · rw [if_pos hcond]; simp
    · rw [if_neg hcond]
  · intro h1 h2 h3
    unfold _ensure_dir
    subst h3
    rw [if_pos ⟨h1, h2⟩]
    simp

/-- C9 witness: concrete instances of the three cases. -/
theorem C9_ensure_dir_witness :
    _ensure_dir ["d"] false "boom" "d" = (["d"], (true, none)) ∧
    (_ensure_dir [] true "boom" "d").2 = (true, none) ∧
    _ensure_dir [] false "boom" "d" = ([], (false, some "boom")) :=
  ⟨(C9_ensure_dir ["d"] false "boom" "d").1 (by decide),
   (C9_ensure_dir [] true "boom" "d").2.1 rfl,
   (C9_ensure_dir [] false "boom" "d").2.2 (by decide) (by decide) rfl⟩

/-! ### Dispatcher state machine lemmas -/
theorem skip_of_enabled (fuel : Nat) (q : List RQM_Job) (i : Int)
    (h : enabled_at q i) : skip_disabled_fuel fuel q i = i := by
  obtain ⟨j, hj, hje⟩ := h
  cases fuel with
  | zero => rfl
  | succ n =>
    unfold skip_disabled_fuel
    rw [if_neg]
    intro hcond
    rw [hj] at hcond
    have h3 : (!j.enabled) = true := hcond.2
    rw [hje] at h3
    simp at h3

theorem skip_disabled_of_enabled (q : List RQM_Job) (i : Int)
    (h : enabled_at q i) : skip_disabled q i = i :=
  skip_of_enabled _ q i h

theorem skip_fuel_post (fuel : Nat) : ∀ (q : List RQM_Job) (i : Int),
    0 ≤ i → (q.length : Int) ≤ i + fuel →
    0 ≤ skip_disabled_fuel fuel q i ∧ i ≤ skip_disabled_fuel fuel q i ∧
    (skip_disabled_fuel fuel q i < (q.length : Int) →
      enabled_at q (skip_disabled_fuel fuel q i)) := by
  induction fuel with
  | zero =>
    intro q i h0 hb
    refine ⟨h0, le_refl _, ?_⟩
    intro hlt
    unfold skip_disabled_fuel at hlt
    omega
  | succ n ih =>
    intro q i h0 hb
    unfold skip_disabled_fuel
    by_cases hcond : i < (q.length : Int) ∧ skipCond (pyIndex q i) = true
    · rw [if_pos hcond]
      have := ih q (i + 1) (by omega) (by omega)
      exact ⟨this.1, by omega, this.2.2⟩
    · rw [if_neg hcond]
      refine ⟨h0, le_refl _, fun hlt => ?_⟩
      have hnat : i.toNat < q.length := by omega
      cases hj : pyIndex q i with
      | none =>
        exfalso
        unfold pyIndex at hj
        rw [if_pos h0] at hj
        rw [List.getElem?_eq_getElem hnat] at hj
        exact Option.noConfusion hj
      | some j =>
        refine ⟨j, hj, ?_⟩
        by_cases hje : j.enabled = true
        · exact hje
        · exfalso
          apply hcond
          refine ⟨hlt, ?_⟩
          rw [hj]
          show (!j.enabled) = true
          rw [eq_false_of_ne_true hje]
          rfl

theorem skip_disabled_post (q : List RQM_Job) (i : Int) (h0 : 0 ≤ i) :
    0 ≤ skip_disabled q i ∧ i ≤ skip_disabled q i ∧
    (skip_disabled q i < (q.length : Int) → enabled_at q (skip_disabled q i)) := by
  unfold skip_disabled
  exact skip_fuel_post _ q i h0 (by omega)

theorem handler_advance_eq (s : QState) :
    handler_advance s =
      { s with render_in_progress := false,
               current_job_index :=
                 if handlerInc s then s.current_job_index + 1 else s.current_job_index,
               skip_increment_once := false } := rfl

theorem modal_tick_not_running {s : QState} (h : s.running = false)
    (host a r : Bool) : (modal_tick host a r s).1 = s := by
  unfold modal_tick
  rw [if_pos h]

theorem modal_tick_finished {s : QState} (h : s.running = true)
    (hend : (s.queue.length : Int) ≤ skip_disabled s.queue s.current_job_index)
    (host a r : Bool) :
    (modal_tick host a r s).1 = { s with running := false, current_job_index := -1 } := by
  simp only [modal_tick]
  rw [if_neg (by rw [h]; simp), if_pos hend]

theorem modal_tick_stall {s : QState} (h : s.running = true)
    (hend : ¬ (s.queue.length : Int) ≤ skip_disabled s.queue s.current_job_index)
    (hrip : s.render_in_progress = true) (a r : Bool) :
    (modal_tick false a r s).1 =
      { s with skip_increment_once := true, render_in_progress := false,
               current_job_index := skip_disabled s.queue s.current_job_index + 1 } := by
  simp only [modal_tick]
  rw [if_neg (by rw [h]; simp), if_neg hend, if_pos hrip]
  simp

theorem modal_tick_in_progress {s : QState} (h : s.running = true)
    (hend : ¬ (s.queue.length : Int) ≤ skip_disabled s.queue s.current_job_index)
    (hrip : s.render_in_progress = true) {host : Bool} (hhost : ¬ host = false)
    (a r : Bool) :
    (modal_tick host a r s).1 =
      { s with current_job_index := skip_disabled s.queue s.current_job_index } := by
  simp only [modal_tick]
  rw [if_neg (by rw [h]; simp), if_neg hend, if_pos hrip, if_neg hhost]

theorem modal_tick_apply_fail {s : QState} (h : s.running = true)
    (hend : ¬ (s.queue.length : Int) ≤ skip_disabled s.queue s.current_job_index)
    (hrip : ¬ s.render_in_progress = true) (host r : Bool) :
    (modal_tick host false r s).1 =
      { s with current_job_index := skip_disabled s.queue s.current_job_index + 1 } := by
  simp only [modal_tick]
  rw [if_neg (by rw [h]; simp), if_neg hend, if_neg hrip]
  simp

theorem modal_tick_dispatch {s : QState} (h : s.running = true)
    (hend : ¬ (s.queue.length : Int) ≤ skip_disabled s.queue s.current_job_index)
    (hrip : ¬ s.render_in_progress = true) (host : Bool) :
    (modal_tick host true true s).1 =
      { s with current_job_index := skip_disabled s.queue s.current_job_index,
               render_in_progress := true } := by
  simp only [modal_tick]
  rw [if_neg (by rw [h]; simp), if_neg hend, if_neg hrip]
  simp

theorem modal_tick_render_fail {s : QState} (h : s.running = true)
    (hend : ¬ (s.queue.length : Int) ≤ skip_disabled s.queue s.current_job_index)
    (hrip : ¬ s.render_in_progress = true) (host : Bool) :
    (modal_tick host true false s).1 =
      { s with current_job_index := skip_disabled s.queue s.current_job_index + 1,
               render_in_progress := false } := by
  simp only [modal_tick]
  rw [if_neg (by rw [h]; simp), if_neg hend, if_neg hrip]
  simp

theorem reachable_inv {s : QState} (hs : Reachable s) : QInv s := by
  induction hs with
  | start q skip hq =>
    exact ⟨fun _ => le_refl _, fun h => by simp at h⟩
  | step e s hs ih =>
    cases e with
    | tick host apply_ok render_ok =>
      show QInv (modal_tick host apply_ok render_ok s).1
      by_cases hrun : s.running = false
      · rw [modal_tick_not_running hrun]
        exact ih
      · have hruntrue : s.running = true := by
          cases h : s.running
          · exact absurd h hrun
          · rfl
        have hidx0 : 0 ≤ s.current_job_index := ih.1 hruntrue
        have hpost := skip_disabled_post s.queue s.current_job_index hidx0
        by_cases hend : (s.queue.length : Int) ≤ skip_disabled s.queue s.current_job_index
        · rw [modal_tick_finished hruntrue hend]
          refine ⟨fun h => Bool.noConfusion h, fun h => ?_⟩
          exfalso
          have h2 : s.render_in_progress = true := h
          obtain ⟨_, _, hlen, hen⟩ := ih.2 h2
          rw [skip_disabled_of_enabled _ _ hen] at hend
          omega
        · by_cases hrip : s.render_in_progress = true
          · obtain ⟨hrun2, hlo, hlen, hen⟩ := ih.2 hrip
            have hieq : skip_disabled s.queue s.current_job_index = s.current_job_index :=
              skip_disabled_of_enabled _ _ hen
            by_cases hhost : host = false
            · subst hhost
              rw [modal_tick_stall hruntrue hend hrip]
              refine ⟨fun _ => ?_, fun h => Bool.noConfusion h⟩
              show 0 ≤ skip_disabled s.queue s.current_job_index + 1
              omega
            · rw [modal_tick_in_progress hruntrue hend hrip hhost]
              refine ⟨fun _ => ?_, fun _ => ?_⟩
              · show 0 ≤ skip_disabled s.queue s.current_job_index
                omega
              · refine ⟨hrun2, ?_, ?_, ?_⟩
                · show 0 ≤ skip_disabled s.queue s.current_job_index
                  omega
                · show skip_disabled s.queue s.current_job_index < (s.queue.length : Int)
                  omega
                · show enabled_at s.queue (skip_disabled s.queue s.current_job_index)
                  rw [hieq]
                  exact hen
          · cases happ : apply_ok with
            | false =>
              rw [modal_tick_apply_fail hruntrue hend hrip]
              refine ⟨fun _ => ?_, fun h => absurd h hrip⟩
              show 0 ≤ skip_disabled s.queue s.current_job_index + 1
              omega
            | true =>
              cases hrok : render_ok with
              | true =>
                rw [modal_tick_dispatch hruntrue hend hrip]
                refine ⟨fun _ => ?_, fun _ => ?_⟩
                · show 0 ≤ skip_disabled s.queue s.current_job_index
                  omega
                · refine ⟨hruntrue, ?_, ?_, ?_⟩
                  · show 0 ≤ skip_disabled s.queue s.current_job_index
                    omega
                  · show skip_disabled s.queue s.current_job_index < (s.queue.length : Int)
                    omega
                  · exact hpost.2.2 (by omega)
              | false =>
                rw [modal_tick_render_fail hruntrue hend hrip]
                refine ⟨fun _ => ?_, fun h => Bool.noConfusion h⟩
                show 0 ≤ skip_disabled s.queue s.current_job_index + 1
                omega
    | complete =>
      show QInv (handler_advance s)
      rw [handler_advance_eq]
      refine ⟨fun h => ?_, fun h => Bool.noConfusion h⟩
      have h3 := ih.1 h
      show 0 ≤ (if handlerInc s then s.current_job_index + 1 else s.current_job_index)
      by_cases hinc : handlerInc s = true
      · rw [if_pos hinc]; omega
      · rw [if_neg hinc]; omega
    | cancel =>
      show QInv (handler_advance s)
      rw [handler_advance_eq]
      refine ⟨fun h => ?_, fun h => Bool.noConfusion h⟩
      have h3 := ih.1 h
      show 0 ≤ (if handlerInc s then s.current_job_index + 1 else s.current_job_index)
      by_cases hinc : handlerInc s = true
      · rw [if_pos hinc]; omega
      · rw [if_neg hinc]; omega

/-- C1: in a running queue state with `render_in_progress = true` whose
current job is a valid enabled entry (the invariant of every reachable
rendering state), a single poll tick in which the host reports no active
render clears `render_in_progress`, sets `_skip_increment_once`, and
advances `current_job_index` by exactly one; and the next
`render_complete` or `render_cancel` handler invocation does not advance
the index again, so the net advance over tick plus handler is exactly
one. -/
theorem C1_stall_compensation (s : QState) (a r : Bool)
    (hrun : s.running = true) (hrip : s.render_in_progress = true)
    (hlo : 0 ≤ s.current_job_index)
    (hhi : s.current_job_index < (s.queue.length : Int))
    (hen : enabled_at s.queue s.current_job_index) :
    (modal_tick false a r s).1.render_in_progress = false ∧
    (modal_tick false a r s).1.skip_increment_once = true ∧
    (modal_tick false a r s).1.current_job_index = s.current_job_index + 1 ∧
    (_on_render_complete (modal_tick false a r s).1).current_job_index =
      s.current_job_index + 1 ∧
    (_on_render_cancel (modal_tick false a r s).1).current_job_index =
      s.current_job_index + 1 := by
  have hskip : skip_disabled s.queue s.current_job_index = s.current_job_index :=
    skip_disabled_of_enabled _ _ hen
  have hend : ¬ (s.queue.length : Int) ≤ skip_disabled s.queue s.current_job_index := by
    rw [hskip]; omega
  rw [modal_tick_stall hrun hend hrip]
  refine ⟨rfl, rfl, by show skip_disabled _ _ + 1 = _; rw [hskip], ?_, ?_⟩ <;>
  · show (handler_advance _).current_job_index = _
    rw [handler_advance_eq]
    show (if handlerInc _ then _ else _) = _
    rw [if_neg (by simp [handlerInc])]
    show skip_disabled _ _ + 1 = _
    rw [hskip]

/-- C1 witness: a one-job queue mid-render with the host reporting no
active render job. -/
theorem C1_stall_compensation_witness :
    (modal_tick false false false
      { queue := [{}], running := true, current_job_index := 0,
        render_in_progress := true, skip_increment_once := false }).1.render_in_progress
        = false ∧
    (modal_tick false false false
      { queue := [{}], running := true, current_job_index := 0,
        render_in_progress := true, skip_increment_once := false }).1.skip_increment_once
        = true ∧
    (modal_tick false false false
      { queue := [{}], running := true, current_job_index := 0,
        render_in_progress := true, skip_increment_once := false }).1.current_job_index
        = 0 + 1 ∧
    (_on_render_complete (modal_tick false false false
      { queue := [{}], running := true, current_job_index := 0,
        render_in_progress := true, skip_increment_once := false }).1).current_job_index
        = 0 + 1 ∧
    (_on_render_cancel (modal_tick false false false
      { queue := [{}], running := true, current_job_index := 0,
        render_in_progress := true, skip_increment_once := false }).1).current_job_index
        = 0 + 1 :=
  C1_stall_compensation _ false false rfl rfl (by decide) (by decide)
    ⟨{}, by decide, rfl⟩

/-- C2: in every state reachable from Start by poll ticks and handler
firings, at most one job is marked as rendering (the single
`render_in_progress` flag is tied to `current_job_index`), and whenever a
render is in progress, any event that changes `current_job_index` is a
terminating one — `render_complete`, `render_cancel`, or a stall tick in
which the host reports no active render — and it clears the in-progress
flag and advances the index by exactly one. -/
theorem C2_queue_invariant (s : QState) (e : QEvent) (hs : Reachable s) :
    (∀ i k : Int, job_is_rendering s i → job_is_rendering s k → i = k) ∧
    (s.render_in_progress = true →
      (qstep e s).current_job_index ≠ s.current_job_index →
      termination_event e ∧ (qstep e s).render_in_progress = false ∧
      (qstep e s).current_job_index = s.current_job_index + 1) := by
  have inv := reachable_inv hs
  constructor
  · intro i k hi hk
    rw [← hi.2, ← hk.2]
  · intro hrip hne
    obtain ⟨hrun, hlo, hhi, hen⟩ := inv.2 hrip
    have hskip : skip_disabled s.queue s.current_job_index = s.current_job_index :=
      skip_disabled_of_enabled _ _ hen
    have hend : ¬ (s.queue.length : Int) ≤ skip_disabled s.queue s.current_job_index := by
      rw [hskip]; omega
    cases e with
    | tick host apply_ok render_ok =>
      by_cases hhost : host = false
      · subst hhost
        have hstep : qstep (QEvent.tick false apply_ok render_ok) s =
            { s with skip_increment_once := true, render_in_progress := false,
                     current_job_index := skip_disabled s.queue s.current_job_index + 1 } :=
          modal_tick_stall hrun hend hrip apply_ok render_ok
        rw [hstep]
        refine ⟨rfl, rfl, ?_⟩
        show skip_disabled _ _ + 1 = _
        rw [hskip]
      · exfalso
        apply hne
        have hstep : qstep (QEvent.tick host apply_ok render_ok) s =
            { s with current_job_index := skip_disabled s.queue s.current_job_index } :=
          modal_tick_in_progress hrun hend hrip hhost apply_ok render_ok
        rw [hstep]
        exact hskip
    | complete =>
      have hstep : qstep QEvent.complete s = handler_advance s := rfl
      rw [hstep, handler_advance_eq] at hne ⊢
      by_cases hinc : handlerInc s = true
      · refine ⟨trivial, rfl, ?_⟩
        show (if handlerInc s then _ else _) = _
        rw [if_pos hinc]
      · exfalso
        apply hne
        show (if handlerInc s then _ else _) = _
        rw [if_neg hinc]
    | cancel =>
      have hstep : qstep QEvent.cancel s = handler_advance s := rfl
      rw [hstep, handler_advance_eq] at hne ⊢
      by_cases hinc : handlerInc s = true
      · refine ⟨trivial, rfl, ?_⟩
        show (if handlerInc s then _ else _) = _
        rw [if_pos hinc]
      · exfalso
        apply hne
        show (if handlerInc s then _ else _) = _
        rw [if_neg hinc]

/-- C2 witness: from a reachable mid-render state, a stall tick is a
termination event that clears the flag and advances the index by one. -/
theorem C2_queue_invariant_witness :
    termination_event (QEvent.tick false true true) ∧
    (qstep (QEvent.tick false true true) w2state1).render_in_progress = false ∧
    (qstep (QEvent.tick false true true) w2state1).current_job_index =
      w2state1.current_job_index + 1 :=
  (C2_queue_invariant w2state1 (.tick false true true)
    (Reachable.step (.tick true true true) w2state0
      (Reachable.start [{}] false (by decide)))).2 (by decide) (by decide)
/-! ### List helpers for the regex characterizations -/

theorem append_cancel_r {α : Type} {a b : List α} (c : List α) (h : a ++ c = b ++ c) :
    a = b :=
  List.append_cancel_right h

theorem take_length_takeWhile (p : Char → Bool) (l : List Char) :
    l.take (l.takeWhile p).length = l.takeWhile p := by
  induction l with
  | nil => rfl
  | cons a t ih =>
    by_cases h : p a
    · simp only [List.takeWhile_cons, h, if_pos, List.length_cons, List.take_succ_cons]
      rw [ih]
    · simp only [List.takeWhile_cons, h, Bool.false_eq_true, if_false, List.length_nil,
        List.take_zero]

theorem takeWhile_append_all {p : Char → Bool} {a : List Char} (b : List Char)
    (h : ∀ x ∈ a, p x = true) : (a ++ b).takeWhile p = a ++ b.takeWhile p := by
  induction a with
  | nil => rfl
  | cons x xs ih =>
    have hx := h x (by simp)
    simp only [List.cons_append, List.takeWhile_cons, hx, if_pos]
    rw [ih (fun y hy => h y (by simp [hy]))]

theorem takeWhile_cons_neg {p : Char → Bool} {x : Char} (xs : List Char)
    (h : p x = false) : (x :: xs).takeWhile p = [] := by
  simp [List.takeWhile_cons, h]

theorem space_not_digit {c : Char} (h : pyIsSpace c = true) : c.isDigit = false := by
  simp only [pyIsSpace, Bool.or_eq_true, beq_iff_eq] at h
  rcases h with ((((h | h) | h) | h) | h) | h <;> subst h <;> decide

theorem digit_not_space {c : Char} (h : c.isDigit = true) : pyIsSpace c = false := by
  cases hs : pyIsSpace c
  · rfl
  · rw [space_not_digit hs] at h
    exact Bool.noConfusion h

theorem alnum_not_space {c : Char} (h : isAlnumA c = true) : pyIsSpace c = false := by
  cases hs : pyIsSpace c
  · rfl
  · exfalso
    simp only [pyIsSpace, Bool.or_eq_true, beq_iff_eq] at hs
    rcases hs with ((((hs | hs) | hs) | hs) | hs) | hs <;> subst hs <;>
      exact Bool.noConfusion h

theorem getLast?_some_mem {l : List Char} {a : Char} (h : l.getLast? = some a) : a ∈ l :=
  List.mem_of_mem_getLast? (by rw [h]; rfl)

theorem extCheck_shape {e : List Char} (h : extCheck e = true) :
    ∃ t, e = '.' :: t ∧ t ≠ [] ∧ '.' ∉ t := by
  cases e with
  | nil => exact Bool.noConfusion h
  | cons c t =>
    have h2 : (c == '.' && (!t.isEmpty && t.all (fun x => x != '.'))) = true := h
    rw [Bool.and_eq_true, Bool.and_eq_true] at h2
    have hc : c = '.' := by simpa using h2.1
    refine ⟨t, by rw [hc], ?_, ?_⟩
    · intro ht
      rw [ht] at h2
      simp at h2
    · intro hmem
      have := (List.all_eq_true.1 h2.2.2) '.' hmem
      simp at this

theorem extCheck_of_shape {t : List Char} (h1 : t ≠ []) (h2 : '.' ∉ t) :
    extCheck ('.' :: t) = true := by
  have hdef : extCheck ('.' :: t) =
      ('.' == '.' && (!t.isEmpty && t.all (fun x => x != '.'))) := rfl
  rw [hdef, Bool.and_eq_true, Bool.and_eq_true]
  refine ⟨by decide, by simpa using h1, ?_⟩
  rw [List.all_eq_true]
  intro c hc
  simp only [bne_iff_ne, ne_eq]
  intro he
  exact h2 (he ▸ hc)

theorem ext_suffix_unique {X T t : List Char} (hT : '.' ∉ T) (ht : '.' ∉ t)
    (hsuf : ('.' :: t) <:+ (X ++ '.' :: T)) : t = T := by
  have hTsuf : ('.' :: T) <:+ (X ++ '.' :: T) := ⟨X, rfl⟩
  rcases List.suffix_or_suffix_of_suffix hsuf hTsuf with h | h
  · rcases List.suffix_cons_iff.1 h with h1 | h1
    · exact (List.cons.inj h1).2
    · exact absurd (h1.subset (by simp)) hT
  · rcases List.suffix_cons_iff.1 h with h1 | h1
    · exact ((List.cons.inj h1).2).symm
    · exact absurd (h1.subset (by simp)) ht

theorem tail_run_unique {A B f F : List Char} {p : Char → Bool}
    (heq : A ++ f = B ++ F)
    (hf : ∀ c ∈ f, p c = true) (hF : ∀ c ∈ F, p c = true)
    (hA : ∀ c, A.getLast? = some c → p c = false)
    (hB : ∀ c, B.getLast? = some c → p c = false) : f = F ∧ A = B := by
  have hfs : f <:+ (A ++ f) := ⟨A, rfl⟩
  have hFs : F <:+ (A ++ f) := by rw [heq]; exact ⟨B, rfl⟩
  rcases List.suffix_or_suffix_of_suffix hfs hFs with h | h
  · obtain ⟨F1, hF1⟩ := h
    have heq2 : A = B ++ F1 := by
      apply append_cancel_r f
      rw [heq, ← hF1, List.append_assoc]
    cases hF1e : F1 with
    | nil =>
      rw [hF1e] at hF1 heq2
      simp only [List.nil_append] at hF1
      simp only [List.append_nil] at heq2
      exact ⟨hF1, heq2⟩
    | cons x xs =>
      exfalso
      have hne : F1.getLast? ≠ none := by
        rw [hF1e]
        simp
      cases hl : F1.getLast? with
      | none => exact hne hl
      | some y =>
        have hlast : A.getLast? = some y := by
          rw [heq2, List.getLast?_append, hl]
          rfl
        have hy1 : p y = false := hA y hlast
        have hy2 : p y = true := by
          apply hF
          rw [← hF1]
          exact List.mem_append_left _ (getLast?_some_mem hl)
        rw [hy1] at hy2
        exact Bool.noConfusion hy2
  · obtain ⟨f1, hf1⟩ := h
    have heq2 : A ++ f1 = B := by
      apply append_cancel_r F
      rw [← heq, ← hf1, List.append_assoc]
    cases hf1e : f1 with
    | nil =>
      rw [hf1e] at hf1 heq2
      simp only [List.nil_append] at hf1
      simp only [List.append_nil] at heq2
      exact ⟨hf1.symm, heq2⟩
    | cons x xs =>
      exfalso
      have hne : f1.getLast? ≠ none := by
        rw [hf1e]
        simp
      cases hl : f1.getLast? with
      | none => exact hne hl
      | some y =>
        have hlast : B.getLast? = some y := by
          rw [← heq2, List.getLast?_append, hl]
          rfl
        have hy1 : p y = false := hB y hlast
        have hy2 : p y = true := by
          apply hf
          rw [← hf1]
          exact List.mem_append_left _ (getLast?_some_mem hl)
        rw [hy1] at hy2
        exact Bool.noConfusion hy2

/-! ### Soundness and boundary behaviour of the `_any_frame_pat` matcher -/

theorem wsFrameExt_sound {l : List Char} {f e : List Char}
    (h : wsFrameExt l = some (f, e)) :
    ∃ w, l = w ++ f ++ e ∧ w ≠ [] ∧ (∀ c ∈ w, pyIsSpace c = true) ∧
      (∀ c ∈ f, c.isDigit = true) ∧ 3 ≤ f.length ∧ extCheck e = true := by
  unfold wsFrameExt at h
  set w := l.takeWhile pyIsSpace with hw
  by_cases hwe : w.isEmpty
  · rw [if_pos hwe] at h
    exact Option.noConfusion h
  · rw [if_neg hwe] at h
    set l2 := l.drop w.length with hl2
    set f0 := l2.takeWhile Char.isDigit with hf0
    by_cases hcond : (3 ≤ f0.length && extCheck (l2.drop f0.length)) = true
    · rw [if_pos hcond] at h
      have h2 := Option.some.inj h
      have hfeq : f0 = f := congrArg Prod.fst h2
      have heeq : l2.drop f0.length = e := congrArg Prod.snd h2
      rw [Bool.and_eq_true] at hcond
      have htakew : l.take w.length = w := by
        rw [hw]
        exact take_length_takeWhile pyIsSpace l
      have h1 : w ++ l2 = l := by
        conv_rhs => rw [← List.take_append_drop w.length l]
        rw [htakew, ← hl2]
      have htakef : l2.take f0.length = f0 := by
        rw [hf0]
        exact take_length_takeWhile Char.isDigit l2
      have h3 : f0 ++ (l2.drop f0.length) = l2 := by
        conv_rhs => rw [← List.take_append_drop f0.length l2]
        rw [htakef]
      refine ⟨w, ?_, by simpa using hwe, ?_, ?_, ?_, ?_⟩
      · rw [List.append_assoc, ← hfeq, ← heeq, h3, h1]
      · intro c hc
        rw [hw] at hc
        exact List.mem_takeWhile_imp hc
      · intro c hc
        rw [← hfeq, hf0] at hc
        exact List.mem_takeWhile_imp hc
      · rw [← hfeq]
        simpa using hcond.1
      · rw [← heeq]
        exact hcond.2
    · rw [if_neg hcond] at h
      exact Option.noConfusion h

theorem anyTagDesc_sound {r1 : List Char} {v f e : List Char} :
    ∀ {k : Nat}, anyTagDesc r1 k = some (v, f, e) →
    ∃ m, v = '_' :: r1.take m ∧ wsFrameExt (r1.drop m) = some (f, e) := by
  intro k
  induction k with
  | zero => intro h; exact Option.noConfusion h
  | succ n ih =>
    intro h
    unfold anyTagDesc at h
    cases hws : wsFrameExt (r1.drop (n + 1)) with
    | some fe =>
      rw [hws] at h
      have h2 := Option.some.inj h
      refine ⟨n + 1, ?_, ?_⟩
      · exact (congrArg (fun x => x.1) h2).symm
      · rw [hws]
        have hf : fe.1 = f := congrArg (fun x => x.2.1) h2
        have he : fe.2 = e := congrArg (fun x => x.2.2) h2
        rw [← hf, ← he]
    | none =>
      rw [hws] at h
      exact ih h

theorem anyFrameTryAt_sound {R v f e : List Char}
    (h : anyFrameTryAt R = some (v, f, e)) :
    ∃ w, R = v ++ w ++ f ++ e ∧ w ≠ [] ∧ (∀ c ∈ w, pyIsSpace c = true) ∧
      (∀ c ∈ f, c.isDigit = true) ∧ 3 ≤ f.length ∧ extCheck e = true := by
  have habs : ∀ {fe : List Char × List Char},
      wsFrameExt R = some fe →
      ∃ w, R = w ++ fe.1 ++ fe.2 ∧ w ≠ [] ∧ (∀ c ∈ w, pyIsSpace c = true) ∧
        (∀ c ∈ fe.1, c.isDigit = true) ∧ 3 ≤ fe.1.length ∧ extCheck fe.2 = true := by
    intro fe hws
    obtain ⟨w, hw1, hw2, hw3, hw4, hw5, hw6⟩ := wsFrameExt_sound hws
    exact ⟨w, hw1, hw2, hw3, hw4, hw5, hw6⟩
  cases R with
  | nil => exact Option.noConfusion h
  | cons c r1 =>
    have h2 : (if c = '_' then
        match anyTagDesc r1 (r1.takeWhile isAlnumA).length with
        | some r => some r
        | none => (wsFrameExt (c :: r1)).map (fun fe => (([] : List Char), fe.1, fe.2))
      else (wsFrameExt (c :: r1)).map (fun fe => (([] : List Char), fe.1, fe.2)))
        = some (v, f, e) := h
    by_cases hc : c = '_'
    · rw [if_pos hc] at h2
      cases htag : anyTagDesc r1 (r1.takeWhile isAlnumA).length with
      | some r =>
        rw [htag] at h2
        have h3 := Option.some.inj h2
        obtain ⟨m, hv, hws⟩ := anyTagDesc_sound htag
        obtain ⟨w, hw1, hw2, hw3, hw4, hw5, hw6⟩ := wsFrameExt_sound hws
        have hveq : r.1 = v := congrArg (fun x => x.1) h3
        have hfeq : r.2.1 = f := congrArg (fun x => x.2.1) h3
        have heeq : r.2.2 = e := congrArg (fun x => x.2.2) h3
        subst hc
        refine ⟨w, ?_, hw2, hw3, by rw [← hfeq]; exact hw4, by rw [← hfeq]; exact hw5,
          by rw [← heeq]; exact hw6⟩
        rw [← hveq, ← hfeq, ← heeq, hv]
        show '_' :: r1 = ('_' :: r1.take m) ++ w ++ r.2.1 ++ r.2.2
        conv_lhs => rw [show r1 = r1.take m ++ r1.drop m from (List.take_append_drop m r1).symm,
          hw1]
        simp [List.append_assoc]
      | none =>
        rw [htag] at h2
        cases hws : wsFrameExt (c :: r1) with
        | some fe =>
          rw [hws] at h2
          have h3 := Option.some.inj h2
          have hveq : ([] : List Char) = v := congrArg (fun x => x.1) h3
          have hfeq : fe.1 = f := congrArg (fun x => x.2.1) h3
          have heeq : fe.2 = e := congrArg (fun x => x.2.2) h3
          obtain ⟨w, hw1, hw2, hw3, hw4, hw5, hw6⟩ := habs hws
          refine ⟨w, ?_, hw2, hw3, by rw [← hfeq]; exact hw4, by rw [← hfeq]; exact hw5,
            by rw [← heeq]; exact hw6⟩
          rw [← hveq, ← hfeq, ← heeq, List.nil_append]
          exact hw1
        | none =>
          rw [hws] at h2
          exact Option.noConfusion h2
    · rw [if_neg hc] at h2
      cases hws : wsFrameExt (c :: r1) with
      | some fe =>
        rw [hws] at h2
        have h3 := Option.some.inj h2
        have hveq : ([] : List Char) = v := congrArg (fun x => x.1) h3
        have hfeq : fe.1 = f := congrArg (fun x => x.2.1) h3
        have heeq : fe.2 = e := congrArg (fun x => x.2.2) h3
        obtain ⟨w, hw1, hw2, hw3, hw4, hw5, hw6⟩ := habs hws
        refine ⟨w, ?_, hw2, hw3, by rw [← hfeq]; exact hw4, by rw [← hfeq]; exact hw5,
          by rw [← heeq]; exact hw6⟩
        rw [← hveq, ← hfeq, ← heeq, List.nil_append]
        exact hw1
      | none =>
        rw [hws] at h2
        exact Option.noConfusion h2

/-! ### C6: the stereo-rename example run -/

/-- C6 is false as stated: on a base directory holding exactly
`SceneCamLeft0001.png`, `SceneCamRight0001.png` and `SceneCam0001.png`
with `stereo_keep_plain = false` and no extra tags, one run of the stereo
renamer neither produces `SceneCam_L 0001.png` nor deletes the plain
frame file. -/
theorem C6_counterexample :
    "SceneCam_L 0001.png" ∉ (_stereo_rename c6job c6fs).filesIn "out/Job/base" ∧
    "SceneCam 0001.png" ∈ (_stereo_rename c6job c6fs).filesIn "out/Job/base" := by
  decide

/-- C6 (amended): on that directory one run only inserts a space before
each frame number — the files become `SceneCamLeft 0001.png`,
`SceneCamRight 0001.png` and `SceneCam 0001.png`, and nothing is deleted.
Pass 1 skips all three files: regex variant 1 matches `SceneCamLeft0001`
with the lazy one-character base `S` and the unrecognized catch-all view
token `ceneCamLeft000`, so the L/R normalization never fires; pass 2 adds
the space; pass 3 finds no tagged views for the frame and keeps the plain
file even though `stereo_keep_plain` is false. -/
theorem C6_amended :
    _stereo_rename c6job c6fs =
      { dirs := ["out/Job/base"],
        files := [("out/Job/base",
          ["SceneCamLeft 0001.png", "SceneCamRight 0001.png", "SceneCam 0001.png"])] } := by
  decide

/-! ### Path roundtrips under the single-file base directory -/

theorem strExt {s t : String} (h : s.data = t.data) : s = t := by
  cases s
  cases t
  exact congrArg String.mk h

theorem strdata_append (a b : String) : (a ++ b).data = a.data ++ b.data := by
  cases a
  cases b
  rfl

theorem dropWhile_append_all {p : Char → Bool} {a : List Char} (b : List Char)
    (h : ∀ x ∈ a, p x = true) : (a ++ b).dropWhile p = b.dropWhile p := by
  induction a with
  | nil => rfl
  | cons x xs ih =>
    have hx := h x (by simp)
    rw [List.cons_append, List.dropWhile_cons, hx]
    simp only [if_true]
    exact ih (fun y hy => h y (by simp [hy]))

theorem basenameL_join (R n : List Char) (hn : ∀ c ∈ n, c ≠ '/') :
    basenameL (R ++ '/' :: n) = n := by
  unfold basenameL
  have h1 : (R ++ '/' :: n).reverse = n.reverse ++ '/' :: R.reverse := by simp
  rw [h1, takeWhile_append_all ('/' :: R.reverse) ?ha, takeWhile_cons_neg _ (by decide),
    List.append_nil, List.reverse_reverse]
  case ha =>
    intro x hx
    have hx2 : x ∈ n := List.mem_reverse.1 hx
    simpa using hn x hx2

theorem dirheadL_join (R n : List Char) (hn : ∀ c ∈ n, c ≠ '/') :
    dirheadL (R ++ '/' :: n) = R ++ ['/'] := by
  unfold dirheadL
  have h1 : (R ++ '/' :: n).reverse = n.reverse ++ '/' :: R.reverse := by simp
  rw [h1, dropWhile_append_all ('/' :: R.reverse) ?ha]
  · have h2 : List.dropWhile (fun c => c != '/') ('/' :: R.reverse) = '/' :: R.reverse := by
      rw [List.dropWhile_cons]
      simp
    rw [h2]
    simp
  case ha =>
    intro x hx
    have hx2 : x ∈ n := List.mem_reverse.1 hx
    simpa using hn x hx2

theorem pyJoin_base_data (n : String) (hn : ∀ c ∈ n.data, c ≠ '/') :
    (pyJoin "out/Job/base" n).data = "out/Job/base".data ++ '/' :: n.data := by
  have hss : strStartsWith n "/" = false := by
    unfold strStartsWith
    cases hd : n.data with
    | nil => rfl
    | cons c t =>
      have hc : c ≠ '/' := hn c (by rw [hd]; exact List.mem_cons_self c t)
      show List.isPrefixOf ['/'] (c :: t) = false
      have hbeq : (('/' : Char) == c) = false := beq_eq_false_iff_ne.2 (fun h => hc h.symm)
      simp [List.isPrefixOf, hbeq]
  unfold pyJoin
  rw [hss]
  simp only [Bool.false_eq_true, if_false]
  rw [if_neg (by decide : ¬("out/Job/base" : String) = "")]
  rw [if_neg (by decide : ¬strEndsWith "out/Job/base" "/" = true)]
  rw [strdata_append, strdata_append]
  simp

theorem pyJoin_base_ne (n : String) (hn : ∀ c ∈ n.data, c ≠ '/') :
    pyJoin "out/Job/base" n ≠ "out/Job/base" := by
  intro h
  have h2 := congrArg String.data h
  rw [pyJoin_base_data n hn] at h2
  have h3 := congrArg List.length h2
  simp [List.length_append] at h3

theorem dirname_join_base (n : String) (hn : ∀ c ∈ n.data, c ≠ '/') :
    _dirname (pyJoin "out/Job/base" n) = "out/Job/base" := by
  simp only [_dirname]
  rw [pyJoin_base_data n hn, dirheadL_join _ _ hn]
  decide

theorem basename_join_base (n : String) (hn : ∀ c ∈ n.data, c ≠ '/') :
    _basename (pyJoin "out/Job/base" n) = n := by
  simp only [_basename]
  rw [pyJoin_base_data n hn, basenameL_join _ _ hn]

/-! ### Digit characters of the decimal printer -/

theorem natToDigitsAux_digits (fuel : Nat) :
    ∀ (n : Nat) (acc : List Char), (∀ c ∈ acc, c.isDigit = true) →
    ∀ c ∈ natToDigitsAux fuel n acc, c.isDigit = true := by
  induction fuel with
  | zero => intro n acc hacc c hc; exact hacc c hc
  | succ f ih =>
    intro n acc hacc c hc
    have hd : (Char.ofNat (48 + n % 10)).isDigit = true := by
      have hm : n % 10 < 10 := Nat.mod_lt _ (by norm_num)
      interval_cases h : n % 10 <;> decide
    have hacc2 : ∀ x ∈ (Char.ofNat (48 + n % 10) :: acc), x.isDigit = true := by
      intro x hx
      rcases List.mem_cons.1 hx with h | h
      · rw [h]; exact hd
      · exact hacc x h
    unfold natToDigitsAux at hc
    by_cases hn : n < 10
    · rw [if_pos hn] at hc
      exact hacc2 c hc
    · rw [if_neg hn] at hc
      exact ih (n / 10) _ hacc2 c hc

theorem zfill_digits (w n : Nat) : ∀ c ∈ zfill w n, c.isDigit = true := by
  intro c hc
  simp only [zfill] at hc
  rcases List.mem_append.1 hc with h | h
  · rw [List.eq_of_mem_replicate h]
    decide
  · exact natToDigitsAux_digits _ _ _ (by intro x hx; simp at hx) c h

/-! ### The lazy base scan: soundness and completeness -/

theorem lazyScanGo_sound (tryAt : List Char → Option (List Char × List Char × List Char)) :
    ∀ (rest base : List Char) (m : MatchParts), lazyScanGo tryAt base rest = some m →
    ∃ R, base ++ rest = m.base ++ R ∧ tryAt R = some (m.view, m.frame, m.ext) := by
  intro rest
  induction rest with
  | nil =>
    intro base m h
    unfold lazyScanGo at h
    cases ht : tryAt [] with
    | none => rw [ht] at h; exact Option.noConfusion h
    | some r =>
      rw [ht] at h
      have h2 := Option.some.inj h
      have hb : m.base = base := (congrArg MatchParts.base h2).symm
      have hv : m.view = r.1 := (congrArg MatchParts.view h2).symm
      have hf : m.frame = r.2.1 := (congrArg MatchParts.frame h2).symm
      have he : m.ext = r.2.2 := (congrArg MatchParts.ext h2).symm
      refine ⟨[], by rw [hb], ?_⟩
      rw [ht, hv, hf, he]
  | cons c rs ih =>
    intro base m h
    unfold lazyScanGo at h
    cases ht : tryAt (c :: rs) with
    | some r =>
      rw [ht] at h
      have h2 := Option.some.inj h
      have hb : m.base = base := (congrArg MatchParts.base h2).symm
      have hv : m.view = r.1 := (congrArg MatchParts.view h2).symm
      have hf : m.frame = r.2.1 := (congrArg MatchParts.frame h2).symm
      have he : m.ext = r.2.2 := (congrArg MatchParts.ext h2).symm
      refine ⟨c :: rs, by rw [hb], ?_⟩
      rw [ht, hv, hf, he]
    | none =>
      rw [ht] at h
      obtain ⟨R, hR1, hR2⟩ := ih (base ++ [c]) m h
      refine ⟨R, ?_, hR2⟩
      rw [← hR1]
      simp

theorem lazyScanGo_finds (tryAt : List Char → Option (List Char × List Char × List Char)) :
    ∀ (rest R : List Char) (r : List Char × List Char × List Char),
    R <:+ rest → tryAt R = some r →
    ∀ base, ∃ m, lazyScanGo tryAt base rest = some m := by
  intro rest
  induction rest with
  | nil =>
    intro R r hsuf htry base
    have hR : R = [] := List.suffix_nil.1 hsuf
    rw [hR] at htry
    refine ⟨⟨base, r.1, r.2.1, r.2.2⟩, ?_⟩
    unfold lazyScanGo
    rw [htry]
    rfl
  | cons c rs ih =>
    intro R r hsuf htry base
    cases ht : tryAt (c :: rs) with
    | some r2 =>
      refine ⟨⟨base, r2.1, r2.2.1, r2.2.2⟩, ?_⟩
      unfold lazyScanGo
      rw [ht]
    | none =>
      rcases List.suffix_cons_iff.1 hsuf with h1 | h1
      · rw [h1] at htry
        rw [htry] at ht
        exact Option.noConfusion ht
      · obtain ⟨m, hm⟩ := ih R r h1 htry (base ++ [c])
        refine ⟨m, ?_⟩
        unfold lazyScanGo
        rw [ht]
        exact hm

/-! ### Pinning the parts of an `_any_frame_pat` match -/

theorem space_suffix_unique {A P w : List Char} (heq : A ++ w = P ++ [' '])
    (hw : w ≠ []) (hws : ∀ c ∈ w, pyIsSpace c = true)
    (hPl : ∀ c, P.getLast? = some c → pyIsSpace c = false) :
    w = [' '] ∧ A = P := by
  obtain ⟨u, a, hu⟩ : ∃ u a, w = u ++ [a] :=
    ⟨w.dropLast, w.getLast hw, (List.dropLast_append_getLast hw).symm⟩
  have heq2 : (A ++ u) ++ [a] = P ++ [' '] := by
    rw [List.append_assoc, ← hu]
    exact heq
  obtain ⟨h1, h2⟩ := List.append_inj' heq2 rfl
  cases hue : u with
  | nil =>
    rw [hue] at h1
    simp only [List.append_nil] at h1
    refine ⟨?_, h1⟩
    rw [hu, hue]
    simpa using h2
  | cons x xs =>
    exfalso
    have hne : u.getLast? ≠ none := by
      rw [hue]
      simp
    cases hl : u.getLast? with
    | none => exact hne hl
    | some b =>
      have hPlast : P.getLast? = some b := by
        rw [← h1, List.getLast?_append, hl]
        rfl
      have hb1 : pyIsSpace b = false := hPl b hPlast
      have hb2 : pyIsSpace b = true := by
        apply hws
        rw [hu]
        exact List.mem_append_left _ (getLast?_some_mem hl)
      rw [hb1] at hb2
      exact Bool.noConfusion hb2

theorem anyFrame_parts_pinned {P F T : List Char} {m : MatchParts}
    (hPl : ∀ c, P.getLast? = some c → pyIsSpace c = false)
    (hF : ∀ c ∈ F, c.isDigit = true) (hT : T ≠ []) (hTd : '.' ∉ T)
    (h : _any_frame_match (P ++ ' ' :: (F ++ '.' :: T)) = some m) :
    m.base ++ m.view = P ∧ m.frame = F ∧ m.ext = '.' :: T := by
  cases hname : P ++ ' ' :: (F ++ '.' :: T) with
  | nil =>
    rw [hname] at h
    exact Option.noConfusion h
  | cons c rest =>
    rw [hname] at h
    have h2 : lazyScanGo anyFrameTryAt [c] rest = some m := h
    obtain ⟨R, hR1, hR2⟩ := lazyScanGo_sound anyFrameTryAt rest [c] m h2
    have hfull : P ++ ' ' :: (F ++ '.' :: T) = m.base ++ R := by
      rw [hname]
      exact hR1
    obtain ⟨w, hw1, hw2, hw3, hw4, hw5, hw6⟩ := anyFrameTryAt_sound hR2
    rw [hw1] at hfull
    simp only [List.append_assoc] at hfull
    obtain ⟨t, hte, htne, htd⟩ := extCheck_shape hw6
    have hwit : (m.base ++ (m.view ++ (w ++ m.frame))) ++ ('.' :: t) = (P ++ ' ' :: F) ++ ('.' :: T) := by
      rw [← hte]
      simp only [List.append_assoc]
      rw [← hfull]
      simp
    have ht_eq : t = T :=
      ext_suffix_unique hTd htd ⟨m.base ++ (m.view ++ (w ++ m.frame)), hwit⟩
    have hext : m.ext = '.' :: T := by rw [hte, ht_eq]
    rw [ht_eq] at hwit
    have hcut : m.base ++ (m.view ++ (w ++ m.frame)) = P ++ ' ' :: F :=
      List.append_cancel_right hwit
    have hfr_eq : ((m.base ++ m.view) ++ w) ++ m.frame = (P ++ [' ']) ++ F := by
      simp only [List.append_assoc]
      simpa only [List.append_assoc, List.singleton_append] using hcut
    obtain ⟨hfF, hbvw⟩ := tail_run_unique hfr_eq hw4 hF
      (by
        intro a ha
        rw [List.getLast?_append_of_ne_nil _ hw2] at ha
        exact space_not_digit (hw3 a (getLast?_some_mem ha)))
      (by
        intro a ha
        rw [List.getLast?_append_of_ne_nil _ (by simp : ([' '] : List Char) ≠ [])] at ha
        have h3 : some ' ' = some a := ha
        injection h3 with h4
        rw [← h4]
        decide)
    obtain ⟨hwsp, hbv⟩ := space_suffix_unique hbvw hw2 hw3 hPl
    exact ⟨hbv, hfF, hext⟩

theorem anyFrameTryAt_boundary {F T : List Char}
    (hF : ∀ c ∈ F, c.isDigit = true) (hF3 : 3 ≤ F.length)
    (hT : T ≠ []) (hTd : '.' ∉ T) :
    anyFrameTryAt (' ' :: (F ++ '.' :: T)) = some ([], F, '.' :: T) := by
  obtain ⟨f0, F1, hFe⟩ : ∃ f0 F1, F = f0 :: F1 := by
    cases F with
    | nil => simp at hF3
    | cons a b => exact ⟨a, b, rfl⟩
  have hwtake : (' ' :: (F ++ '.' :: T)).takeWhile pyIsSpace = [' '] := by
    rw [List.takeWhile_cons]
    rw [show pyIsSpace ' ' = true from rfl]
    simp only [if_true]
    rw [hFe, List.cons_append,
      takeWhile_cons_neg _ (digit_not_space (hF f0 (by rw [hFe]; exact List.mem_cons_self f0 F1)))]
  have hftake : (F ++ '.' :: T).takeWhile Char.isDigit = F := by
    rw [takeWhile_append_all _ hF, takeWhile_cons_neg _ (by decide), List.append_nil]
  have hdrop : (F ++ '.' :: T).drop F.length = '.' :: T := List.drop_left F _
  have hext : extCheck ('.' :: T) = true := extCheck_of_shape hT hTd
  have hws : wsFrameExt (' ' :: (F ++ '.' :: T)) = some (F, '.' :: T) := by
    simp only [wsFrameExt]
    rw [hwtake]
    simp only [List.isEmpty_cons, Bool.false_eq_true, if_false, List.length_cons,
      List.length_nil, List.drop_succ_cons, List.drop_zero]
    simp only [hftake, hdrop, hext, decide_eq_true hF3]
    simp
  have h2 : anyFrameTryAt (' ' :: (F ++ '.' :: T)) =
      (wsFrameExt (' ' :: (F ++ '.' :: T))).map (fun fe => (([] : List Char), fe.1, fe.2)) := by
    simp only [anyFrameTryAt]
    rw [if_neg (by decide : ¬(' ' = '_'))]
  rw [h2, hws]
  rfl

theorem anyFrame_matches {P F T : List Char} (hP : P ≠ [])
    (hF : ∀ c ∈ F, c.isDigit = true) (hF3 : 3 ≤ F.length)
    (hT : T ≠ []) (hTd : '.' ∉ T) :
    ∃ m, _any_frame_match (P ++ ' ' :: (F ++ '.' :: T)) = some m := by
  obtain ⟨p, P1, hPe⟩ : ∃ p P1, P = p :: P1 := by
    cases P with
    | nil => exact absurd rfl hP
    | cons a b => exact ⟨a, b, rfl⟩
  have hbnd := anyFrameTryAt_boundary hF hF3 hT hTd
  obtain ⟨m, hm⟩ := lazyScanGo_finds anyFrameTryAt (P1 ++ ' ' :: (F ++ '.' :: T))
    (' ' :: (F ++ '.' :: T)) ([], F, '.' :: T) ⟨P1, rfl⟩ hbnd [p]
  refine ⟨m, ?_⟩
  rw [hPe]
  exact hm

/-! ### The single-file rebase computation -/

theorem c8_jrd (s e : Int) : job_root_dir (c8job s e) = "out/Job" := by
  show pyJoin (bpy_path_abspath (c8job s e).output_path) (safeJobName (c8job s e)) = "out/Job"
  rw [show (c8job s e).output_path = "//out/" from rfl,
    show safeJobName (c8job s e) = _sanitize_component "Job" from rfl]
  decide

theorem c8_bdir (s e : Int) : base_render_dir (c8job s e) = "out/Job/base" := by
  show _append_job_suffix (pyJoin (job_root_dir (c8job s e)) "base") (c8job s e) (some "base")
    = "out/Job/base"
  rw [c8_jrd s e]
  simp only [_append_job_suffix]
  rw [show (c8job s e).suffix_output_folders_with_job = false from rfl]
  simp only [Bool.false_eq_true, if_false]
  decide

theorem rebase_single (s e : Int) (nm : String) :
    _rebase_numbering [] (c8job s e) (c8fs nm) =
      match _any_frame_match nm.data with
      | none => c8fs nm
      | some m => rebaseBody s e nm m := by
  simp only [_rebase_numbering]
  rw [c8_bdir s e, show _compute_src_range [] (c8job s e) = (s, if e < s then s else e) from rfl]
  rw [show (c8fs nm).isdir "out/Job/base" = true from rfl]
  simp only [Bool.not_true, Bool.false_eq_true, if_false]
  rw [show searchRoots (c8fs nm) "out/Job/base" = ["out/Job/base"] from rfl]
  simp only [List.foldl_cons, List.foldl_nil]
  rw [show (c8fs nm).listdir "out/Job/base" = [nm] from rfl]
  simp only [List.foldl_cons, List.foldl_nil]
  cases _any_frame_match nm.data with
  | none => rfl
  | some m => rfl

theorem replace_single (nm newNm : String) (hnm : ∀ c ∈ nm.data, c ≠ '/')
    (hnew : ∀ c ∈ newNm.data, c ≠ '/') (hne : newNm ≠ nm) :
    (c8fs nm).replaceFile (pyJoin "out/Job/base" nm) (pyJoin "out/Job/base" newNm)
      = c8fs newNm := by
  have hdn := dirname_join_base newNm hnew
  have hbn := basename_join_base newNm hnew
  have hdo := dirname_join_base nm hnm
  have hbo := basename_join_base nm hnm
  have hsrc : (c8fs nm).isfile (pyJoin "out/Job/base" nm) = true := by
    unfold FS.isfile
    rw [hdo, hbo]
    show (nm == nm || false) = true
    simp
  unfold FS.replaceFile
  rw [hsrc]
  simp only [if_true]
  unfold FS.removeFile FS.addFile
  rw [hdn, hbn, hdo, hbo]
  have hb1 : (nm == newNm) = false := beq_eq_false_iff_ne.2 (fun h => hne h.symm)
  simp [c8fs, FS.filesIn, List.erase_cons, hb1]

/-- C8 is false as stated: its concrete example needs a two-digit frame
field, but `_any_frame_pat` requires at least three frame digits, so with
source range 20-30 the file `Shot 25.png` is not matched at all: the
rebase pass leaves it unchanged and never produces `Shot 05.png`. -/
theorem C8_counterexample :
    _rebase_numbering [] (c8job 20 30) (c8fs "Shot 25.png") = c8fs "Shot 25.png" ∧
    "Shot 05.png" ∉ (_rebase_numbering [] (c8job 20 30) (c8fs "Shot 25.png")).filesIn
      "out/Job/base" := by
  decide

/-- C8 (amended): for a job with explicit source range `s ≤ e` and a
single output file `<prefix> <frame><ext>` — prefix nonempty and not
ending in whitespace, frame a run of AT LEAST THREE digits, extension
dot-free and nonempty — the rebase pass renames the file so its frame
number becomes `frame - s` zero-padded to the original digit-field width
when `s ≤ frame ≤ e`, and leaves it unchanged when the frame lies outside
the range. -/
theorem C8_amended (s e : Int) (P F T : List Char) (nm : String)
    (hse : s ≤ e)
    (hnm : nm.data = P ++ ' ' :: (F ++ '.' :: T))
    (hP : P ≠ [])
    (hPl : ∀ c, P.getLast? = some c → pyIsSpace c = false)
    (hF : ∀ c ∈ F, c.isDigit = true) (hF3 : 3 ≤ F.length)
    (hT : T ≠ []) (hTd : '.' ∉ T)
    (hsl : ∀ c ∈ nm.data, c ≠ '/') :
    _rebase_numbering [] (c8job s e) (c8fs nm) =
      if (digitsVal F : Int) < s ∨ e < (digitsVal F : Int) then c8fs nm
      else c8fs (String.mk (P ++ ' ' ::
        (zfill F.length ((digitsVal F : Int) - s).toNat ++ '.' :: T))) := by
  obtain ⟨m, hm0⟩ := anyFrame_matches hP hF hF3 hT hTd
  have hm : _any_frame_match nm.data = some m := by rw [hnm]; exact hm0
  obtain ⟨hbv, hfr, hext⟩ := anyFrame_parts_pinned hPl hF hT hTd hm0
  rw [rebase_single, hm]
  show rebaseBody s e nm m = _
  simp only [rebaseBody]
  rw [if_neg (not_lt.2 hse), hfr, hext]
  by_cases hrange : ((digitsVal F : Int) < s ∨ e < (digitsVal F : Int))
  · rw [if_pos hrange, if_pos hrange]
  · rw [if_neg hrange, if_neg hrange]
    have hname_eq : String.mk m.base ++ String.mk m.view ++ " " ++
        String.mk (zfill F.length (((digitsVal F : Nat) : Int) - s).toNat) ++
          String.mk ('.' :: T)
        = String.mk (P ++ ' ' ::
            (zfill F.length (((digitsVal F : Nat) : Int) - s).toNat ++ '.' :: T)) := by
      apply strExt
      simp only [strdata_append]
      show (((m.base ++ m.view) ++ [' ']) ++
          zfill F.length (((digitsVal F : Nat) : Int) - s).toNat) ++ '.' :: T
        = P ++ ' ' :: (zfill F.length (((digitsVal F : Nat) : Int) - s).toNat ++ '.' :: T)
      rw [hbv]
      simp
    rw [hname_eq]
    have hNFd := zfill_digits F.length (((digitsVal F : Nat) : Int) - s).toNat
    have hPsl : ∀ c ∈ P, c ≠ '/' := fun c hc =>
      hsl c (by rw [hnm]; exact List.mem_append_left _ hc)
    have hTsl : ∀ c ∈ T, c ≠ '/' := fun c hc =>
      hsl c (by rw [hnm]; simp [hc])
    have hnewsl : ∀ c ∈ (String.mk (P ++ ' ' ::
        (zfill F.length (((digitsVal F : Nat) : Int) - s).toNat ++ '.' :: T))).data,
        c ≠ '/' := by
      intro c hc
      have hc2 : c ∈ P ++ ' ' ::
          (zfill F.length (((digitsVal F : Nat) : Int) - s).toNat ++ '.' :: T) := hc
      rcases List.mem_append.1 hc2 with h | h
      · exact hPsl c h
      · rcases List.mem_cons.1 h with h | h
        · rw [h]; decide
        · rcases List.mem_append.1 h with h | h
          · intro he
            have := hNFd c h
            rw [he] at this
            exact absurd this (by decide)
          · rcases List.mem_cons.1 h with h | h
            · rw [h]; decide
            · exact hTsl c h
    by_cases hnn : String.mk (P ++ ' ' ::
        (zfill F.length (((digitsVal F : Nat) : Int) - s).toNat ++ '.' :: T)) = nm
    · rw [if_pos hnn, hnn]
    · rw [if_neg hnn]
      have hdst_ne := pyJoin_base_ne _ hnewsl
      have hisdir : (c8fs nm).isdir (pyJoin "out/Job/base" (String.mk (P ++ ' ' ::
          (zfill F.length (((digitsVal F : Nat) : Int) - s).toNat ++ '.' :: T)))) = false := by
        show (pyJoin "out/Job/base" _ == "out/Job/base" || false) = false
        rw [beq_eq_false_iff_ne.2 hdst_ne]
        rfl
      rw [hisdir]
      simp only [Bool.false_eq_true, if_false]
      have hnotfile : (c8fs nm).isfile (pyJoin "out/Job/base" (String.mk (P ++ ' ' ::
          (zfill F.length (((digitsVal F : Nat) : Int) - s).toNat ++ '.' :: T)))) = false := by
        unfold FS.isfile
        rw [dirname_join_base _ hnewsl, basename_join_base _ hnewsl]
        show (String.mk _ == nm || false) = false
        rw [beq_eq_false_iff_ne.2 hnn]
        rfl
      have hpe : (c8fs nm).pathExists (pyJoin "out/Job/base" (String.mk (P ++ ' ' ::
          (zfill F.length (((digitsVal F : Nat) : Int) - s).toNat ++ '.' :: T)))) = false := by
        unfold FS.pathExists
        rw [hnotfile, hisdir]
        rfl
      rw [hpe]
      simp only [Bool.false_eq_true, if_false]
      exact replace_single nm _ hsl hnewsl hnn

/-- The C8 amended theorem at the concrete example: source range 20-30
and the three-digit frame file `Shot 025.png` is rebased to
`Shot 005.png`. -/
theorem C8_amended_witness :
    _rebase_numbering [] (c8job 20 30) (c8fs "Shot 025.png") = c8fs "Shot 005.png" := by
  have h := C8_amended 20 30 "Shot".data (['0', '2', '5']) "png".data "Shot 025.png"
    (by decide) (by decide) (by decide)
    (by
      intro c hc
      have h3 : some 't' = some c := hc
      injection h3 with h4
      rw [← h4]
      decide)
    (by decide) (by decide) (by decide) (by decide) (by decide)
  rw [h]
  decide

/-! ### Character-case and word-shape helpers for the variant-1 matcher -/

theorem digit_toUpper {c : Char} (h : c.isDigit = true) : c.toUpper = c := by
  simp only [Char.isDigit, Bool.and_eq_true, decide_eq_true_eq] at h
  unfold Char.toUpper
  rw [if_neg]
  intro hcon
  have h1 : c.toNat ≥ 97 := hcon.1
  have h3 : c.val.toNat ≤ (57 : UInt32).toNat := h.2
  have h4 : (57 : UInt32).toNat = 57 := rfl
  rw [Char.toNat] at h1
  omega

theorem space_word_mem {c : Char} (hsp : pyIsSpace c = true)
    (h : c.toLower ∈ (['l', 'e', 'f', 't'] : List Char) ∨
      c.toLower ∈ (['r', 'i', 'g', 'h', 't'] : List Char)) : False := by
  simp only [pyIsSpace, Bool.or_eq_true, beq_iff_eq] at hsp
  rcases hsp with ((((hc | hc) | hc) | hc) | hc) | hc <;> subst hc <;> revert h <;> decide

theorem ciPrefixMatch_chars {word R : List Char} (h : ciPrefixMatch word R = true) :
    ∀ c ∈ R.take word.length, c.toLower ∈ word := by
  unfold ciPrefixMatch at h
  have h2 : (R.take word.length).map Char.toLower = word := eq_of_beq h
  intro c hc
  rw [← h2]
  exact List.mem_map_of_mem _ hc

theorem frameThenExt_sound {l : List Char} {f e : List Char}
    (h : frameThenExt l = some (f, e)) :
    l = f ++ e ∧ (∀ c ∈ f, c.isDigit = true) ∧ f ≠ [] ∧ extCheck e = true := by
  unfold frameThenExt at h
  by_cases hfe : (l.takeWhile Char.isDigit).isEmpty = true
  · rw [if_pos hfe] at h
    exact Option.noConfusion h
  · rw [if_neg hfe] at h
    by_cases hec : extCheck (l.drop (l.takeWhile Char.isDigit).length) = true
    · rw [if_pos hec] at h
      have h3 := Option.some.inj h
      have hf : l.takeWhile Char.isDigit = f := congrArg Prod.fst h3
      have he : l.drop (l.takeWhile Char.isDigit).length = e := congrArg Prod.snd h3
      refine ⟨?_, ?_, ?_, by rw [← he]; exact hec⟩
      · rw [← hf, ← he]
        conv_lhs => rw [← List.take_append_drop (l.takeWhile Char.isDigit).length l]
        rw [take_length_takeWhile]
      · intro c hc
        rw [← hf] at hc
        exact List.mem_takeWhile_imp hc
      · intro hfn
        rw [← hf] at hfn
        rw [hfn] at hfe
        simp at hfe
    · rw [if_neg hec] at h
      exact Option.noConfusion h

theorem frameThenExt_boundary {F T : List Char} (hF : ∀ c ∈ F, c.isDigit = true)
    (hFne : F ≠ []) (hT : T ≠ []) (hTd : '.' ∉ T) :
    frameThenExt (F ++ '.' :: T) = some (F, '.' :: T) := by
  have hftake : (F ++ '.' :: T).takeWhile Char.isDigit = F := by
    rw [takeWhile_append_all _ hF, takeWhile_cons_neg _ (by decide), List.append_nil]
  simp only [frameThenExt]
  rw [hftake, if_neg (by simpa using hFne), List.drop_left, extCheck_of_shape hT hTd]
  simp

theorem take_all_of_le_run {p : Char → Bool} {rest : List Char} {j : Nat}
    (hj : j ≤ (rest.takeWhile p).length) : ∀ c ∈ rest.take j, p c = true := by
  intro c hc
  have h1 : rest.take j = (rest.takeWhile p).take j := by
    conv_lhs => rw [← List.takeWhile_append_dropWhile (p := p) (l := rest)]
    rw [List.take_append_of_le_length hj]
  rw [h1] at hc
  exact List.mem_takeWhile_imp (List.take_subset j _ hc)

theorem tryAlnumView_sound {min : Nat} {rest : List Char} {v f e : List Char} :
    ∀ {k : Nat}, k ≤ (rest.takeWhile isAlnumA).length →
    tryAlnumView min rest k = some (v, f, e) →
    rest = (v ++ f) ++ e ∧ (∀ c ∈ v, isAlnumA c = true) ∧
      (∀ c ∈ f, c.isDigit = true) ∧ extCheck e = true := by
  intro k
  induction k with
  | zero =>
    intro hk h
    exact Option.noConfusion h
  | succ n ih =>
    intro hk h
    unfold tryAlnumView at h
    by_cases hmin : n + 1 < min
    · rw [if_pos hmin] at h
      exact Option.noConfusion h
    · rw [if_neg hmin] at h
      cases hfe : frameThenExt (rest.drop (n + 1)) with
      | some fe =>
        rw [hfe] at h
        have h3 := Option.some.inj h
        have hv : rest.take (n + 1) = v := congrArg (fun x => x.1) h3
        have hf : fe.1 = f := congrArg (fun x => x.2.1) h3
        have he : fe.2 = e := congrArg (fun x => x.2.2) h3
        obtain ⟨hd, hfd, hfne, hec⟩ := frameThenExt_sound
          (show frameThenExt (rest.drop (n + 1)) = some (fe.1, fe.2) from by rw [hfe])
        refine ⟨?_, ?_, ?_, by rw [← he]; exact hec⟩
        · rw [← hv, ← hf, ← he, List.append_assoc, ← hd]
          exact (List.take_append_drop (n + 1) rest).symm
        · intro c hc
          rw [← hv] at hc
          exact take_all_of_le_run hk c hc
        · intro c hc
          rw [← hf] at hc
          exact hfd c hc
      | none =>
        rw [hfe] at h
        exact ih (le_trans (Nat.le_succ n) hk) h

theorem v1Left_sound {R v f e : List Char} (h : v1Left R = some (v, f, e)) :
    R = (v ++ f) ++ e ∧ (∀ c ∈ v ++ f, pyIsSpace c = false) ∧ extCheck e = true := by
  unfold v1Left at h
  by_cases hci : ciPrefixMatch ['l', 'e', 'f', 't'] R = true
  · rw [if_pos hci] at h
    cases hfe : frameThenExt (R.drop 4) with
    | none =>
      rw [hfe] at h
      exact Option.noConfusion h
    | some fe =>
      rw [hfe] at h
      have h2 : some ((R.take 4 : List Char), fe.1, fe.2) = some (v, f, e) := h
      have h3 := Option.some.inj h2
      have hv : R.take 4 = v := congrArg (fun x => x.1) h3
      have hf : fe.1 = f := congrArg (fun x => x.2.1) h3
      have he : fe.2 = e := congrArg (fun x => x.2.2) h3
      obtain ⟨hd, hfd, hfne, hec⟩ := frameThenExt_sound
        (show frameThenExt (R.drop 4) = some (fe.1, fe.2) from by rw [hfe])
      refine ⟨?_, ?_, by rw [← he]; exact hec⟩
      · rw [← hv, ← hf, ← he, List.append_assoc, ← hd]
        exact (List.take_append_drop 4 R).symm
      · intro c hc
        rcases List.mem_append.1 hc with hcv | hcf
        · rw [← hv] at hcv
          cases hs : pyIsSpace c
        
          · rfl
          · exact absurd (Or.inl (ciPrefixMatch_chars hci c hcv)) (fun hmem => space_word_mem hs hmem)
        · rw [← hf] at hcf
          exact digit_not_space (hfd c hcf)
  · rw [if_neg hci] at h
    exact Option.noConfusion h

theorem v1Right_sound {R v f e : List Char} (h : v1Right R = some (v, f, e)) :
    R = (v ++ f) ++ e ∧ (∀ c ∈ v ++ f, pyIsSpace c = false) ∧ extCheck e = true := by
  unfold v1Right at h
  by_cases hci : ciPrefixMatch ['r', 'i', 'g', 'h', 't'] R = true
  · rw [if_pos hci] at h
    cases hfe : frameThenExt (R.drop 5) with
    | none =>
      rw [hfe] at h
      exact Option.noConfusion h
    | some fe =>
      rw [hfe] at h
      have h2 : some ((R.take 5 : List Char), fe.1, fe.2) = some (v, f, e) := h
      have h3 := Option.some.inj h2
      have hv : R.take 5 = v := congrArg (fun x => x.1) h3
      have hf : fe.1 = f := congrArg (fun x => x.2.1) h3
      have he : fe.2 = e := congrArg (fun x => x.2.2) h3
      obtain ⟨hd, hfd, hfne, hec⟩ := frameThenExt_sound
        (show frameThenExt (R.drop 5) = some (fe.1, fe.2) from by rw [hfe])
      refine ⟨?_, ?_, by rw [← he]; exact hec⟩
      · rw [← hv, ← hf, ← he, List.append_assoc, ← hd]
        exact (List.take_append_drop 5 R).symm
      · intro c hc
        rcases List.mem_append.1 hc with hcv | hcf
        · rw [← hv] at hcv
          cases hs : pyIsSpace c
          · rfl
          · exact absurd (Or.inr (ciPrefixMatch_chars hci c hcv)) (fun hmem => space_word_mem hs hmem)
        · rw [← hf] at hcf
          exact digit_not_space (hfd c hcf)
  · rw [if_neg hci] at h
    exact Option.noConfusion h

theorem v1TryAt_sound {R v f e : List Char} (h : v1TryAt R = some (v, f, e)) :
    R = (v ++ f) ++ e ∧ (∀ c ∈ v ++ f, pyIsSpace c = false) ∧ extCheck e = true := by
  unfold v1TryAt at h
  cases h1 : v1Left R with
  | some r =>
    rw [h1] at h
    have h2 : some r = some (v, f, e) := h
    rw [h2] at h1
    exact v1Left_sound h1
  | none =>
    rw [h1] at h
    cases h2 : v1Right R with
    | some r =>
      rw [h2] at h
      have h3 : some r = some (v, f, e) := h
      rw [h3] at h2
      exact v1Right_sound h2
    | none =>
      rw [h2] at h
      cases h3 : tryAlnumView 2 R (R.takeWhile isAlnumA).length with
      | some r =>
        rw [h3] at h
        have h4 : some r = some (v, f, e) := h
        rw [h4] at h3
        obtain ⟨hd, hva, hfd, hec⟩ := tryAlnumView_sound (le_refl _) h3
        refine ⟨hd, ?_, hec⟩
        intro c hc
        rcases List.mem_append.1 hc with hcv | hcf
        · exact alnum_not_space (hva c hcv)
        · exact digit_not_space (hfd c hcf)
      | none =>
        rw [h3] at h
        cases hfe : frameThenExt R with
        | none =>
          rw [hfe] at h
          exact Option.noConfusion h
        | some fe =>
          rw [hfe] at h
          have h4 : some (([] : List Char), fe.1, fe.2) = some (v, f, e) := h
          have h5 := Option.some.inj h4
          have hv : ([] : List Char) = v := congrArg (fun x => x.1) h5
          have hf : fe.1 = f := congrArg (fun x => x.2.1) h5
          have he : fe.2 = e := congrArg (fun x => x.2.2) h5
          obtain ⟨hd, hfd, hfne, hec⟩ := frameThenExt_sound
            (show frameThenExt R = some (fe.1, fe.2) from by rw [hfe])
          refine ⟨?_, ?_, by rw [← he]; exact hec⟩
          · rw [← hv, ← hf, ← he]
            simpa using hd
          · intro c hc
            rw [← hv, ← hf] at hc
            simp only [List.nil_append] at hc
            exact digit_not_space (hfd c hc)

theorem v1TryAt_none_fte {R : List Char} (h : v1TryAt R = none) :
    frameThenExt R = none := by
  cases hfe : frameThenExt R with
  | none => rfl
  | some fe =>
    exfalso
    unfold v1TryAt at h
    cases h1 : v1Left R with
    | some r =>
      rw [h1] at h
      exact Option.noConfusion (show some r = none from h)
    | none =>
      rw [h1] at h
      cases h2 : v1Right R with
      | some r =>
        rw [h2] at h
        exact Option.noConfusion (show some r = none from h)
      | none =>
        rw [h2] at h
        cases h3 : tryAlnumView 2 R (R.takeWhile isAlnumA).length with
        | some r =>
          rw [h3] at h
          exact Option.noConfusion (show some r = none from h)
        | none =>
          rw [h3, hfe] at h
          exact Option.noConfusion (show some (([] : List Char), fe.1, fe.2) = none from h)

theorem v1_boundary {F T : List Char} (hF : ∀ c ∈ F, c.isDigit = true) (hFne : F ≠ [])
    (hT : T ≠ []) (hTd : '.' ∉ T) :
    ∃ r, v1TryAt (F ++ '.' :: T) = some r := by
  cases hv : v1TryAt (F ++ '.' :: T) with
  | some r => exact ⟨r, rfl⟩
  | none =>
    exfalso
    have h1 := v1TryAt_none_fte hv
    rw [frameThenExt_boundary hF hFne hT hTd] at h1
    exact Option.noConfusion h1

theorem foldl_self {α : Type} {β : Type} (f : α → β → α) (a : α) (l : List β)
    (h : ∀ x ∈ l, f a x = a) : l.foldl f a = a := by
  induction l with
  | nil => rfl
  | cons x xs ih =>
    rw [List.foldl_cons, h x (by simp)]
    exact ih (fun y hy => h y (by simp [hy]))

theorem lazyScanGo_at (tryAt : List Char → Option (List Char × List Char × List Char))
    (R0 : List Char) (r : List Char × List Char × List Char)
    (hR0 : tryAt R0 = some r) :
    ∀ (Q base : List Char),
    (∀ R, R <:+ Q ++ R0 → R0.length < R.length → tryAt R = none) →
    lazyScanGo tryAt base (Q ++ R0) = some ⟨base ++ Q, r.1, r.2.1, r.2.2⟩ := by
  intro Q
  induction Q with
  | nil =>
    intro base hblock
    rw [List.nil_append, List.append_nil]
    cases hR0e : R0 with
    | nil =>
      subst hR0e
      unfold lazyScanGo
      rw [hR0]
      rfl
    | cons c rs =>
      subst hR0e
      unfold lazyScanGo
      rw [hR0]
  | cons q Q1 ih =>
    intro base hblock
    have hq : tryAt (q :: (Q1 ++ R0)) = none := by
      apply hblock
      · rw [List.cons_append]
      · simp only [List.length_cons, List.length_append]
        omega
    rw [List.cons_append]
    unfold lazyScanGo
    rw [hq]
    have hih := ih (base ++ [q]) (fun R hRs hRl => hblock R (hRs.trans ⟨[q], by rw [List.cons_append]; rfl⟩) hRl)
    rw [hih]
    have hb : (base ++ [q]) ++ Q1 = base ++ q :: Q1 := by simp
    rw [hb]

/-! ### The normalized names of C7: pinning every matcher -/

theorem mid_suffix_of_spacefree {X0 P F mid : List Char}
    (heq : X0 ++ mid = (P ++ [' ']) ++ F)
    (hsp : ∀ c ∈ mid, pyIsSpace c = false) :
    mid <:+ F := by
  have h1 : mid <:+ (P ++ [' ']) ++ F := ⟨X0, heq⟩
  have h2 : (' ' :: F) <:+ (P ++ [' ']) ++ F := ⟨P, by simp⟩
  rcases List.suffix_or_suffix_of_suffix h1 h2 with h | h
  · rcases List.suffix_cons_iff.1 h with h3 | h3
    · exfalso
      have hmem : ' ' ∈ mid := by rw [h3]; simp
      exact absurd (hsp ' ' hmem) (by decide)
    · exact h3
  · exfalso
    have hmem : ' ' ∈ mid := h.subset (by simp)
    exact absurd (hsp ' ' hmem) (by decide)

theorem ext_pin {P F T mid e : List Char} (hTd : '.' ∉ T)
    (hname : ∃ X0, X0 ++ (mid ++ e) = P ++ ' ' :: (F ++ '.' :: T))
    (hec : extCheck e = true) :
    e = '.' :: T ∧ ∃ X1, X1 ++ mid = (P ++ [' ']) ++ F := by
  obtain ⟨X0, hX0⟩ := hname
  obtain ⟨t, hte, htne, htd⟩ := extCheck_shape hec
  have hshape : P ++ ' ' :: (F ++ '.' :: T) = ((P ++ [' ']) ++ F) ++ ('.' :: T) := by simp
  have hsuf : ('.' :: t) <:+ ((P ++ [' ']) ++ F) ++ ('.' :: T) := by
    rw [← hshape, ← hX0, ← hte]
    exact ⟨X0 ++ mid, by simp⟩
  have ht_eq : t = T := ext_suffix_unique hTd htd hsuf
  have he : e = '.' :: T := by rw [hte, ht_eq]
  refine ⟨he, X0, ?_⟩
  apply append_cancel_r ('.' :: T)
  have hX2 : X0 ++ (mid ++ e) = ((P ++ [' ']) ++ F) ++ ('.' :: T) := by rw [hX0, hshape]
  rw [← hX2, he]
  simp

theorem v1_no_long {P F T R : List Char} (hTd : '.' ∉ T)
    (hsuf : R <:+ P ++ ' ' :: (F ++ '.' :: T))
    (hlong : (F ++ '.' :: T).length < R.length) :
    v1TryAt R = none := by
  cases hv : v1TryAt R with
  | none => rfl
  | some r =>
    exfalso
    obtain ⟨hdec, hsp, hec⟩ :=
      v1TryAt_sound (show v1TryAt R = some (r.1, r.2.1, r.2.2) from by rw [hv])
    obtain ⟨X0, hX0⟩ := hsuf
    obtain ⟨he, X1, hmid⟩ := ext_pin hTd ⟨X0, by rw [← hdec]; exact hX0⟩ hec
    have hmidF := mid_suffix_of_spacefree hmid hsp
    have hlen := List.IsSuffix.length_le hmidF
    have h1 := congrArg List.length hdec
    have h2 := congrArg List.length he
    simp only [List.length_append, List.length_cons] at h1 h2 hlong hlen
    omega

theorem v1_match_normalized {P F T : List Char}
    (hP : P ≠ []) (hF : ∀ c ∈ F, c.isDigit = true) (hFne : F ≠ [])
    (hT : T ≠ []) (hTd : '.' ∉ T) :
    ∃ m, lazyScan v1TryAt (P ++ ' ' :: (F ++ '.' :: T)) = some m ∧
      (∀ c ∈ m.view, c.isDigit = true) := by
  obtain ⟨r, hr⟩ := v1_boundary hF hFne hT hTd
  obtain ⟨p, P1, hPe⟩ : ∃ p P1, P = p :: P1 := by
    cases P with
    | nil => exact absurd rfl hP
    | cons a b => exact ⟨a, b, rfl⟩
  have hblock : ∀ R, R <:+ (P1 ++ [' ']) ++ (F ++ '.' :: T) →
      (F ++ '.' :: T).length < R.length → v1TryAt R = none := by
    intro R hRs hRl
    refine v1_no_long (P := P) hTd ?_ hRl
    have h2 : ((P1 ++ [' ']) ++ (F ++ '.' :: T)) <:+ (P ++ ' ' :: (F ++ '.' :: T)) := by
      rw [hPe]
      exact ⟨[p], by simp⟩
    exact hRs.trans h2
  have hgo := lazyScanGo_at v1TryAt (F ++ '.' :: T) r hr (P1 ++ [' ']) [p] hblock
  refine ⟨⟨[p] ++ (P1 ++ [' ']), r.1, r.2.1, r.2.2⟩, ?_, ?_⟩
  · rw [hPe]
    show lazyScanGo v1TryAt [p] (P1 ++ ' ' :: (F ++ '.' :: T)) = _
    rw [show P1 ++ ' ' :: (F ++ '.' :: T) = (P1 ++ [' ']) ++ (F ++ '.' :: T) from by simp]
    exact hgo
  · show ∀ c ∈ r.1, c.isDigit = true
    obtain ⟨hdec, hsp, hec⟩ :=
      v1TryAt_sound (show v1TryAt (F ++ '.' :: T) = some (r.1, r.2.1, r.2.2) from by rw [hr])
    obtain ⟨t, hte, htne, htd⟩ := extCheck_shape hec
    have hsuf2 : ('.' :: t) <:+ (F ++ '.' :: T) := by
      rw [← hte, hdec]
      exact ⟨r.1 ++ r.2.1, rfl⟩
    have ht_eq : t = T := ext_suffix_unique hTd htd hsuf2
    have he : r.2.2 = '.' :: T := by rw [hte, ht_eq]
    have hmid : r.1 ++ r.2.1 = F := by
      apply append_cancel_r ('.' :: T)
      rw [← he, ← hdec, he]
    intro c hc
    exact hF c (by rw [← hmid]; exact List.mem_append_left _ hc)

theorem plainTryAt_sound {R v f e : List Char} (h : plainTryAt R = some (v, f, e)) :
    R = (v ++ f) ++ e ∧ v = [] ∧ (∀ c ∈ f, c.isDigit = true) ∧
      3 ≤ f.length ∧ extCheck e = true := by
  unfold plainTryAt at h
  by_cases hc : (decide (3 ≤ (R.takeWhile Char.isDigit).length) &&
      extCheck (R.drop (R.takeWhile Char.isDigit).length)) = true
  · rw [if_pos hc] at h
    rw [Bool.and_eq_true, decide_eq_true_eq] at hc
    have h3 := Option.some.inj h
    have hv : ([] : List Char) = v := congrArg (fun x => x.1) h3
    have hf : R.takeWhile Char.isDigit = f := congrArg (fun x => x.2.1) h3
    have he : R.drop (R.takeWhile Char.isDigit).length = e := congrArg (fun x => x.2.2) h3
    refine ⟨?_, hv.symm, ?_, by rw [← hf]; exact hc.1, by rw [← he]; exact hc.2⟩
    · rw [← hv, ← hf, ← he]
      simp only [List.nil_append]
      conv_lhs => rw [← List.take_append_drop (R.takeWhile Char.isDigit).length R]
      rw [take_length_takeWhile]
    · intro c hcm
      rw [← hf] at hcm
      exact List.mem_takeWhile_imp hcm
  · rw [if_neg hc] at h
    exact Option.noConfusion h

theorem plain_boundary {F T : List Char} (hF : ∀ c ∈ F, c.isDigit = true)
    (hF3 : 3 ≤ F.length) (hT : T ≠ []) (hTd : '.' ∉ T) :
    plainTryAt (F ++ '.' :: T) = some ([], F, '.' :: T) := by
  have hftake : (F ++ '.' :: T).takeWhile Char.isDigit = F := by
    rw [takeWhile_append_all _ hF, takeWhile_cons_neg _ (by decide), List.append_nil]
  simp only [plainTryAt]
  rw [hftake, List.drop_left, extCheck_of_shape hT hTd, decide_eq_true hF3]
  simp

theorem plain_no_long {P F T R : List Char} (hTd : '.' ∉ T)
    (hsuf : R <:+ P ++ ' ' :: (F ++ '.' :: T))
    (hlong : (F ++ '.' :: T).length < R.length) :
    plainTryAt R = none := by
  cases hv : plainTryAt R with
  | none => rfl
  | some r =>
    exfalso
    obtain ⟨hdec, hvnil, hfd, hf3, hec⟩ :=
      plainTryAt_sound (show plainTryAt R = some (r.1, r.2.1, r.2.2) from by rw [hv])
    obtain ⟨X0, hX0⟩ := hsuf
    obtain ⟨he, X1, hmid⟩ := ext_pin hTd ⟨X0, by rw [← hdec]; exact hX0⟩ hec
    have hsp : ∀ c ∈ r.1 ++ r.2.1, pyIsSpace c = false := by
      intro c hcm
      rcases List.mem_append.1 hcm with hcv | hcf
      · rw [hvnil] at hcv
        simp at hcv
      · exact digit_not_space (hfd c hcf)
    have hmidF := mid_suffix_of_spacefree hmid hsp
    have hlen := List.IsSuffix.length_le hmidF
    have h1 := congrArg List.length hdec
    have h2 := congrArg List.length he
    simp only [List.length_append, List.length_cons] at h1 h2 hlong hlen
    omega

theorem plain_match_normalized {P F T : List Char}
    (hP : P ≠ []) (hF : ∀ c ∈ F, c.isDigit = true) (hF3 : 3 ≤ F.length)
    (hT : T ≠ []) (hTd : '.' ∉ T) :
    ∃ pm, _plain_frame_match (P ++ ' ' :: (F ++ '.' :: T)) = some pm ∧
      pm.base = P ++ [' '] := by
  obtain ⟨p, P1, hPe⟩ : ∃ p P1, P = p :: P1 := by
    cases P with
    | nil => exact absurd rfl hP
    | cons a b => exact ⟨a, b, rfl⟩
  have hb := plain_boundary hF hF3 hT hTd
  have hblock : ∀ R, R <:+ (P1 ++ [' ']) ++ (F ++ '.' :: T) →
      (F ++ '.' :: T).length < R.length → plainTryAt R = none := by
    intro R hRs hRl
    refine plain_no_long (P := P) hTd ?_ hRl
    have h2 : ((P1 ++ [' ']) ++ (F ++ '.' :: T)) <:+ (P ++ ' ' :: (F ++ '.' :: T)) := by
      rw [hPe]
      exact ⟨[p], by simp⟩
    exact hRs.trans h2
  have hgo := lazyScanGo_at plainTryAt (F ++ '.' :: T) ([], F, '.' :: T) hb
    (P1 ++ [' ']) [p] hblock
  refine ⟨⟨[p] ++ (P1 ++ [' ']), [], F, '.' :: T⟩, ?_, ?_⟩
  · rw [hPe]
    show lazyScanGo plainTryAt [p] (P1 ++ ' ' :: (F ++ '.' :: T)) = _
    rw [show P1 ++ ' ' :: (F ++ '.' :: T) = (P1 ++ [' ']) ++ (F ++ '.' :: T) from by simp]
    exact hgo
  · show [p] ++ (P1 ++ [' ']) = P ++ [' ']
    rw [hPe]
    simp

theorem plain_none_normalized {P F T : List Char} (hFlt : F.length < 3)
    (hF : ∀ c ∈ F, c.isDigit = true) (hTd : '.' ∉ T) :
    _plain_frame_match (P ++ ' ' :: (F ++ '.' :: T)) = none := by
  cases hm : _plain_frame_match (P ++ ' ' :: (F ++ '.' :: T)) with
  | none => rfl
  | some m =>
    exfalso
    unfold _plain_frame_match at hm
    cases hname : P ++ ' ' :: (F ++ '.' :: T) with
    | nil =>
      rw [hname] at hm
      exact Option.noConfusion hm
    | cons c rest =>
      rw [hname] at hm
      have h2 : lazyScanGo plainTryAt [c] rest = some m := hm
      obtain ⟨R, hR1, hR2⟩ := lazyScanGo_sound plainTryAt rest [c] m h2
      obtain ⟨hdec, hvnil, hfd, hf3, hec⟩ := plainTryAt_sound hR2
      have hfull : ∃ X0, X0 ++ ((m.view ++ m.frame) ++ m.ext) =
          P ++ ' ' :: (F ++ '.' :: T) := by
        refine ⟨m.base, ?_⟩
        rw [← hdec, hname]
        exact hR1.symm
      obtain ⟨he, X1, hmid⟩ := ext_pin hTd hfull hec
      have hsp : ∀ ch ∈ m.view ++ m.frame, pyIsSpace ch = false := by
        intro ch hch
        rcases List.mem_append.1 hch with h | h
        · rw [hvnil] at h
          simp at h
        · exact digit_not_space (hfd ch h)
      have hmidF := mid_suffix_of_spacefree hmid hsp
      have hlen := List.IsSuffix.length_le hmidF
      have h1 := congrArg List.length hvnil
      simp only [List.length_append, List.length_nil] at h1 hlen
      omega

theorem numBeforeTryAt_sound {R v f e : List Char} (h : numBeforeTryAt R = some (v, f, e)) :
    ∃ v2, v = '_' :: v2 ∧ R = (f ++ '_' :: v2) ++ e ∧ (∀ c ∈ f, c.isDigit = true) ∧
      (∀ c ∈ v2, isAlnumA c = true) ∧ extCheck e = true := by
  unfold numBeforeTryAt at h
  by_cases h1 : 3 ≤ (R.takeWhile Char.isDigit).length
  · rw [if_pos h1] at h
    cases hdrop : R.drop (R.takeWhile Char.isDigit).length with
    | nil =>
      rw [hdrop] at h
      exact Option.noConfusion h
    | cons s r2 =>
      rw [hdrop] at h
      have h0 : (if s = '_' then
          (if (!(r2.takeWhile isAlnumA).isEmpty &&
              extCheck (r2.drop (r2.takeWhile isAlnumA).length)) = true then
            some ('_' :: r2.takeWhile isAlnumA, R.takeWhile Char.isDigit,
              r2.drop (r2.takeWhile isAlnumA).length)
          else none)
        else none) = some (v, f, e) := h
      clear h
      by_cases hs : s = '_'
      · rw [if_pos hs] at h0
        by_cases hcond : (!(r2.takeWhile isAlnumA).isEmpty &&
            extCheck (r2.drop (r2.takeWhile isAlnumA).length)) = true
        · rw [if_pos hcond] at h0
          rw [Bool.and_eq_true] at hcond
          have h3 := Option.some.inj h0
          have hv : '_' :: r2.takeWhile isAlnumA = v := congrArg (fun x => x.1) h3
          have hf : R.takeWhile Char.isDigit = f := congrArg (fun x => x.2.1) h3
          have he : r2.drop (r2.takeWhile isAlnumA).length = e := congrArg (fun x => x.2.2) h3
          refine ⟨r2.takeWhile isAlnumA, hv.symm, ?_, ?_, ?_, by rw [← he]; exact hcond.2⟩
          · have hr2 : r2.takeWhile isAlnumA ++ r2.drop (r2.takeWhile isAlnumA).length = r2 := by
              conv_rhs => rw [← List.take_append_drop (r2.takeWhile isAlnumA).length r2]
              rw [take_length_takeWhile]
            have hRfull : R.takeWhile Char.isDigit ++ (s :: r2) = R := by
              conv_rhs => rw [← List.take_append_drop (R.takeWhile Char.isDigit).length R]
              rw [take_length_takeWhile, hdrop]
            have hfold : (R.takeWhile Char.isDigit ++ '_' :: r2.takeWhile isAlnumA) ++
                r2.drop (r2.takeWhile isAlnumA).length = R := by
              rw [List.append_assoc, List.cons_append, hr2, ← hs]
              exact hRfull
            rw [← hf, ← he]
            exact hfold.symm
          · intro c hcm
            rw [← hf] at hcm
            exact List.mem_takeWhile_imp hcm
          · intro c hcm
            exact List.mem_takeWhile_imp hcm
        · rw [if_neg hcond] at h0
          exact Option.noConfusion h0
      · rw [if_neg hs] at h0
        exact Option.noConfusion h0
  · rw [if_neg h1] at h
    exact Option.noConfusion h

theorem numBefore_none_normalized {P F T : List Char}
    (hF : ∀ c ∈ F, c.isDigit = true) (hTd : '.' ∉ T) :
    _num_before_suffix_match (P ++ ' ' :: (F ++ '.' :: T)) = none := by
  cases hm : _num_before_suffix_match (P ++ ' ' :: (F ++ '.' :: T)) with
  | none => rfl
  | some m =>
    exfalso
    unfold _num_before_suffix_match at hm
    cases hname : P ++ ' ' :: (F ++ '.' :: T) with
    | nil =>
      rw [hname] at hm
      exact Option.noConfusion hm
    | cons c rest =>
      rw [hname] at hm
      have h2 : lazyScanGo numBeforeTryAt [c] rest = some m := hm
      obtain ⟨R, hR1, hR2⟩ := lazyScanGo_sound numBeforeTryAt rest [c] m h2
      obtain ⟨v2, hv, hdec, hfd, hva, hec⟩ := numBeforeTryAt_sound hR2
      have hfull : ∃ X0, X0 ++ ((m.frame ++ '_' :: v2) ++ m.ext) =
          P ++ ' ' :: (F ++ '.' :: T) := by
        refine ⟨m.base, ?_⟩
        rw [← hdec, hname]
        exact hR1.symm
      obtain ⟨he, X1, hmid⟩ := ext_pin hTd hfull hec
      have hsp : ∀ ch ∈ m.frame ++ '_' :: v2, pyIsSpace ch = false := by
        intro ch hch
        rcases List.mem_append.1 hch with h | h
        · exact digit_not_space (hfd ch h)
        · rcases List.mem_cons.1 h with h | h
          · rw [h]
            decide
          · exact alnum_not_space (hva ch h)
      have hmidF := mid_suffix_of_spacefree hmid hsp
      have hu : '_' ∈ F := hmidF.subset (by simp)
      exact absurd (hF '_' hu) (by decide)

theorem endsWith_space (l : List Char) : strEndsWith (String.mk (l ++ [' '])) " " = true := by
  show List.isSuffixOf [' '] (l ++ [' ']) = true
  exact List.isSuffixOf_iff_suffix.2 ⟨l, rfl⟩

/-! ### The three passes are no-ops on normalized names -/

theorem process1Tok_none {m : MatchParts} (hview : ∀ c ∈ m.view, c.isDigit = true) :
    process1Tok [] m = none := by
  simp only [process1Tok]
  have hup : m.view.map Char.toUpper = m.view := by
    have h1 : m.view.map Char.toUpper = m.view.map id :=
      List.map_congr_left (fun c hc => digit_toUpper (hview c hc))
    rw [h1, List.map_id]
  rw [hup]
  have hne : ∀ W : String, ('L' ∈ W.data ∨ 'R' ∈ W.data) → ¬ String.mk m.view = W := by
    intro W hW heq
    have hdata : m.view = W.data := congrArg String.data heq
    rcases hW with h | h
    · exact absurd (hview 'L' (by rw [hdata]; exact h)) (by decide)
    · exact absurd (hview 'R' (by rw [hdata]; exact h)) (by decide)
  rw [if_neg (by
      rintro (h | h)
      · exact hne "LEFT" (Or.inl (by decide)) h
      · exact hne "L" (Or.inl (by decide)) h),
    if_neg (by
      rintro (h | h)
      · exact hne "RIGHT" (Or.inr (by decide)) h
      · exact hne "R" (Or.inr (by decide)) h),
    if_neg (by
      intro hcon
      exact Bool.noConfusion (show false = true from hcon))]

theorem process1_noop (st : FS × List String) (n : String)
    (hn : spec_normalized_name n) :
    process1 [] "out/Job/base" st (pyJoin "out/Job/base" n) = st := by
  obtain ⟨P, F, T, hd, hP, hPl, hF, hFne, hT, hTd, hTs, hsl⟩ := hn
  simp only [process1]
  by_cases h1 : (st.2.contains (pyJoin "out/Job/base" n) ||
      !(st.1.isfile (pyJoin "out/Job/base" n))) = true
  · rw [if_pos h1]
  · rw [if_neg h1]
    rw [basename_join_base n hsl]
    obtain ⟨m, hscan, hview⟩ := v1_match_normalized hP hF hFne hT hTd
    have hvv : viewVariantsMatch n.data = some m := by
      unfold viewVariantsMatch
      rw [show lazyScan v1TryAt n.data = some m from by rw [hd]; exact hscan]
    rw [hvv]
    show process1Apply [] "out/Job/base" st (pyJoin "out/Job/base" n) n m = st
    unfold process1Apply
    rw [process1Tok_none hview]

theorem process2_noop (fs : FS) (n : String) (hn : spec_normalized_name n) :
    process2 [] fs (pyJoin "out/Job/base" n) = fs := by
  obtain ⟨P, F, T, hd, hP, hPl, hF, hFne, hT, hTd, hTs, hsl⟩ := hn
  simp only [process2]
  by_cases h1 : (([] : List String).contains (pyJoin "out/Job/base" n) ||
      !(fs.isfile (pyJoin "out/Job/base" n))) = true
  · rw [if_pos h1]
  · rw [if_neg h1]
    rw [basename_join_base n hsl]
    have hstep : process2Step1 fs (_dirname (pyJoin "out/Job/base" n)) n
        (pyJoin "out/Job/base" n) = (fs, n) := by
      unfold process2Step1
      rw [show _num_before_suffix_match n.data = none from by
        rw [hd]; exact numBefore_none_normalized hF hTd]
    rw [hstep]
    show process2Plain fs (_dirname (pyJoin "out/Job/base" n)) (pyJoin "out/Job/base" n) n = fs
    unfold process2Plain
    by_cases hF3 : 3 ≤ F.length
    · obtain ⟨pm, hpm, hbase⟩ := plain_match_normalized hP hF hF3 hT hTd
      rw [show _plain_frame_match n.data = some pm from by rw [hd]; exact hpm]
      show process2PlainSome fs (_dirname (pyJoin "out/Job/base" n))
        (pyJoin "out/Job/base" n) n pm = fs
      simp only [process2PlainSome]
      rw [hbase, endsWith_space P]
      simp
    · rw [show _plain_frame_match n.data = none from by
        rw [hd]; exact plain_none_normalized (Nat.lt_of_not_le hF3) hF hTd]

theorem c7_listdir (names : List String) : (c7Fs names).listdir "out/Job/base" = names := by
  have h : (c7Fs names).listdir "out/Job/base" = names ++ [] := rfl
  rw [h, List.append_nil]

theorem glob_mem {names : List String} {pat path : String}
    (h : path ∈ (c7Fs names).glob "out/Job/base" pat) :
    ∃ n ∈ names, path = pyJoin "out/Job/base" n := by
  unfold FS.glob at h
  obtain ⟨n, hn1, hn2⟩ := List.mem_map.1 h
  have hn3 := List.mem_filter.1 hn1
  rw [c7_listdir] at hn3
  exact ⟨n, hn3.1, hn2.symm⟩

theorem pass1_noop (patterns : List String) (names : List String)
    (hnorm : ∀ nm ∈ names, spec_normalized_name nm) :
    pass1 [] patterns ["out/Job/base"] (c7Fs names) = (c7Fs names, []) := by
  unfold pass1
  rw [List.foldl_cons, List.foldl_nil]
  show patterns.foldl (fun st pat =>
    (st.1.glob "out/Job/base" pat).foldl (process1 [] "out/Job/base") st)
    (c7Fs names, []) = (c7Fs names, [])
  apply foldl_self
  intro pat hpat
  apply foldl_self
  intro path hpath
  obtain ⟨n, hn_mem, hpath_eq⟩ := glob_mem hpath
  rw [hpath_eq]
  exact process1_noop _ n (hnorm n hn_mem)

theorem c7_bdir : base_render_dir c7job = "out/Job/base" := by decide

/-! ### C7: the renamer on already-normalized file sets -/

/-- C7 is false as stated: on the already-normalized file set
`SceneCam_L 0001.png`, `SceneCam_R 0001.png`, `SceneCam 0001.png`, a
further run of the stereo renamer with `stereo_keep_plain = false` is not
a no-op — pass 3 deletes the plain frame file. -/
theorem C7_counterexample :
    "SceneCam 0001.png" ∈ c7fs.filesIn "out/Job/base" ∧
    "SceneCam 0001.png" ∉ (_stereo_rename c6job c7fs).filesIn "out/Job/base" := by
  decide

/-- C7 (amended): with `stereo_keep_plain = true` (and no extra view
tags), the stereo renamer is the identity on every base directory whose
files all have the normalized shape `<prefix> <frame><ext>` — pass 1
skips every file (regex variant 1 matches with an all-digit or absent
view token, never a recognized tag), pass 2 rewrites nothing (the
number-before-suffix pattern cannot match and the plain-frame match has a
base ending in the space), and pass 3 keeps all plain files. -/
theorem C7_amended (names : List String)
    (hnorm : ∀ nm ∈ names, spec_normalized_name nm) :
    _stereo_rename c7job (c7Fs names) = c7Fs names := by
  simp only [_stereo_rename]
  rw [c7_bdir]
  rw [show (c7Fs names).isdir "out/Job/base" = true from rfl]
  simp only [Bool.not_true, Bool.false_eq_true, if_false]
  rw [show searchRoots (c7Fs names) "out/Job/base" = ["out/Job/base"] from rfl]
  rw [show extForFormat c7job.file_format = ".png" from rfl]
  rw [show _parse_extra_tags c7job.stereo_extra_tags = [] from rfl]
  rw [show c7job.stereo_keep_plain = true from rfl]
  rw [pass1_noop _ names hnorm]
  simp only [eq_self_iff_true, if_true, List.foldr_cons, List.foldr_nil, List.append_nil]
  apply foldl_self
  intro path hpath
  obtain ⟨n, hn_mem, hpath_eq⟩ := glob_mem hpath
  rw [hpath_eq]
  exact process2_noop _ n (hnorm n hn_mem)

/-- The C7 amended theorem at the example's normalized output set. -/
theorem C7_amended_witness :
    _stereo_rename c7job (c7Fs ["SceneCam_L 0001.png", "SceneCam_R 0001.png",
      "SceneCam 0001.png"]) =
    c7Fs ["SceneCam_L 0001.png", "SceneCam_R 0001.png", "SceneCam 0001.png"] := by
  apply C7_amended
  intro nm hnm
  simp only [List.mem_cons, List.not_mem_nil, or_false] at hnm
  rcases hnm with h | h | h
  · subst h
    exact ⟨"SceneCam_L".data, ['0', '0', '0', '1'], "png".data, by decide, by decide,
      (by
        intro c hc
        have h3 : some 'L' = some c := hc
        injection h3 with h4
        rw [← h4]
        decide),
      by decide, by decide, by decide, by decide, by decide, by decide⟩
  · subst h
    exact ⟨"SceneCam_R".data, ['0', '0', '0', '1'], "png".data, by decide, by decide,
      (by
        intro c hc
        have h3 : some 'R' = some c := hc
        injection h3 with h4
        rw [← h4]
        decide),
      by decide, by decide, by decide, by decide, by decide, by decide⟩
  · subst h
    exact ⟨"SceneCam".data, ['0', '0', '0', '1'], "png".data, by decide, by decide,
      (by
        intro c hc
        have h3 : some 'm' = some c := hc
        injection h3 with h4
        rw [← h4]
        decide),
      by decide, by decide, by decide, by decide, by decide, by decide⟩

end RQM
